import Mathlib

/-!
# The `syncset` package: a set backed by `sync.Map`

A shallow embedding of `main.go` and the properties of its operations.

The package stores every item as a key of a `sync.Map`, whose keys and values
have the Go type `any`.  Three things of the Go runtime are therefore part of
the model:

* `SyncMap`: the sequential behaviour of `sync.Map` (`Store`, `Delete`,
  `Load`, `Range`, `Clear`) as a finite association list with distinct keys;
* `Schedule`: the order in which one call of `sync.Map.Range` enumerates the
  entries, which Go leaves unspecified and which may differ between two calls;
* `GoElem`: how the element type `T` sits inside `any`, that is the conversion
  `T → any` done when an item is passed to `Store`, and the type assertion
  `k.(T)` done by `List` and `Range`.

Keys are compared with Go's `==`.  The first part of the file covers the
element types on whose values `==` is equality and never panics (hashable
dynamic types, no floating point NaN); the namespace `Full` has the same
operations for every type that `comparable` admits, with a NaN that is not
`==` to itself and with the panic of `sync.Map` on a key that cannot be hashed.
Callbacks are Go closures, so they are modelled as state transformers
`T → σ → Bool × σ`: the state `σ` stands for the variables the closure captures.
-/

set_option autoImplicit false

namespace Syncset

/-! ## `sync.Map` -/

/-- The contents of a `sync.Map`: finitely many entries, no key twice. -/
structure SyncMap (K V : Type) where
  entries : List (K × V)
  nodupKeys : (entries.map Prod.fst).Nodup

/-- The order in which one call of `sync.Map.Range` enumerates the entries.
Go does not specify it, so every traversal takes its own `Schedule`. -/
structure Schedule (α : Type) where
  arrange : List α → List α
  perm : ∀ l, (arrange l).Perm l

/-- The enumeration in storage order. -/
def Schedule.inOrder (α : Type) : Schedule α :=
  ⟨fun l => l, fun l => List.Perm.refl l⟩

/-- The enumeration in reverse storage order. -/
def Schedule.reversed (α : Type) : Schedule α :=
  ⟨List.reverse, List.reverse_perm⟩

variable {K V σ : Type}

/-- The keys held by the map. -/
def SyncMap.keys (m : SyncMap K V) : List K :=
  m.entries.map Prod.fst

/-- The zero value `sync.Map{}`. -/
def SyncMap.empty : SyncMap K V :=
  ⟨[], List.nodup_nil⟩

/-- Go's `m.Store(key, value)`: sets the value for a key, a new entry when the key
is absent. -/
def SyncMap.Store [DecidableEq K] (m : SyncMap K V) (key : K) (value : V) : SyncMap K V :=
  if h : key ∈ m.entries.map Prod.fst then
    ⟨m.entries.map (fun e => if e.1 = key then (key, value) else e), by
      have hk : (m.entries.map (fun e => if e.1 = key then (key, value) else e)).map Prod.fst
          = m.entries.map Prod.fst := by
        rw [List.map_map]
        apply List.map_congr_left
        intro e _
        by_cases he : e.1 = key <;> simp [he]
      rw [hk]
      exact m.nodupKeys⟩
  else
    ⟨m.entries ++ [(key, value)], by
      rw [List.map_append, List.map_cons, List.map_nil]
      refine List.Nodup.append m.nodupKeys (List.nodup_singleton key) ?_
      intro a ha hb
      have hb' : a = key := by simpa using hb
      exact h (hb' ▸ ha)⟩

/-- Go's `m.Delete(key)`: deletes the entry for a key, if there is one. -/
def SyncMap.Delete [DecidableEq K] (m : SyncMap K V) (key : K) : SyncMap K V :=
  ⟨m.entries.filter (fun e => decide (e.1 ≠ key)),
    (List.Sublist.map Prod.fst (List.filter_sublist m.entries)).nodup m.nodupKeys⟩

/-- Go's `m.Load(key)`: the value stored for a key, `none` for Go's `ok == false`. -/
def SyncMap.Load [DecidableEq K] (m : SyncMap K V) (key : K) : Option V :=
  (m.entries.find? (fun e => decide (e.1 = key))).map Prod.snd

/-- Go's `m.Clear()`: deletes all the entries. -/
def SyncMap.Clear (_m : SyncMap K V) : SyncMap K V :=
  SyncMap.empty

/-- The loop of `sync.Map.Range`: calls `f` on each entry in turn and stops at
the first call that returns `false`. -/
def rangeLoop (f : K → V → σ → Bool × σ) : List (K × V) → σ → σ
  | [], st => st
  | e :: rest, st =>
    match f e.1 e.2 st with
    | (true, st') => rangeLoop f rest st'
    | (false, st') => st'

/-- Go's `m.Range(f)`: calls `f` sequentially for each key and value present in the
map, in the order `o`; if `f` returns false, range stops the iteration. -/
def SyncMap.Range (m : SyncMap K V) (o : Schedule (K × V)) (f : K → V → σ → Bool × σ)
    (st : σ) : σ :=
  rangeLoop f (o.arrange m.entries) st

/-! ## Items as values of `any` -/

/-- The element type `T` inside the type `A` of Go's `any` values. -/
class GoElem (T : Type) (A : outParam Type) where
  /-- the conversion of an item to `any`, as in `this.items.Store(item, ...)` -/
  toAny : T → A
  /-- the type assertion `k.(T)`, `none` for `ok == false` -/
  assertT : A → Option T
  /-- the value `struct{}{}` -/
  sentinel : A
  /-- two items are the same key exactly when they are equal -/
  toAny_inj : ∀ x y, toAny x = toAny y → x = y
  /-- a successful assertion yields the value the key holds -/
  assert_sound : ∀ a x, assertT a = some x → toAny x = a

/-- The values of `any` used by the examples: the nil interface value, strings,
pointers (by address) and `struct{}{}`. -/
inductive GoAny where
  | nil
  | str (s : String)
  | ptr (addr : Nat)
  | unit
  deriving DecidableEq

/-- The element type `T = string`: every string is a non-nil value of `any`. -/
instance : GoElem String GoAny where
  toAny := GoAny.str
  assertT := fun a => match a with
    | GoAny.str s => some s
    | _ => none
  sentinel := GoAny.unit
  toAny_inj := by intro x y h; cases h; rfl
  assert_sound := by
    intro a x h
    cases a <;> simp at h
    rw [h]

/-- A pointer, identified by the address it holds. -/
structure Ptr where
  addr : Nat
  deriving DecidableEq

/-- The element type `T` a pointer type, such as `*func(key string, value int) int`. -/
instance : GoElem Ptr GoAny where
  toAny := fun p => GoAny.ptr p.addr
  assertT := fun a => match a with
    | GoAny.ptr n => some ⟨n⟩
    | _ => none
  sentinel := GoAny.unit
  toAny_inj := by intro x y h; cases x; cases y; cases h; rfl
  assert_sound := by
    intro a x h
    cases a <;> simp at h
    rw [← h]

/-- The element type `T = any`, an interface type: an item is any value of `any`, the nil
interface value included, and `k.(T)` fails on the nil interface value. -/
instance : GoElem GoAny GoAny where
  toAny := fun a => a
  assertT := fun a => match a with
    | GoAny.nil => none
    | a => some a
  sentinel := GoAny.unit
  toAny_inj := by intro x y h; exact h
  assert_sound := by
    intro a x h
    cases a <;> simp at h <;> rw [h]

/-! ## `SyncSet` -/

/-- The type `SyncSet[T comparable]`, a struct of one field, `items sync.Map`. -/
structure SyncSet (T A : Type) where
  items : SyncMap A A

variable {T A : Type}

/-- The constructor `NewSyncSet[T]()`: a set whose map is `sync.Map{}`. -/
def NewSyncSet : SyncSet T A :=
  ⟨SyncMap.empty⟩

/-- Method `Add`: `this.items.Store(item, struct{}{})`. -/
def SyncSet.Add [GoElem T A] [DecidableEq A] (this : SyncSet T A) (item : T) : SyncSet T A :=
  ⟨this.items.Store (GoElem.toAny item) (GoElem.sentinel T)⟩

/-- Method `Remove`: `this.items.Delete(item)`. -/
def SyncSet.Remove [GoElem T A] [DecidableEq A] (this : SyncSet T A) (item : T) : SyncSet T A :=
  ⟨this.items.Delete (GoElem.toAny item)⟩

/-- Method `List`: starts from the empty slice `[]T{}`, ranges over the map and
appends every key that passes `k.(T)`. -/
def SyncSet.List [GoElem T A] (this : SyncSet T A) (o : Schedule (A × A)) : List T :=
  this.items.Range o
    (fun k _ list =>
      match GoElem.assertT k with
      | some item => (true, list ++ [item])
      | none => (true, list))
    []

/-- A Go slice value, which is either `nil` or backed by an array holding its
elements. -/
inductive Slice (T : Type) where
  | nil
  | mk (elems : List T)
  deriving DecidableEq

/-- Go's `append(s, x)`: the result is never `nil`. -/
def Slice.append : Slice T → T → Slice T
  | Slice.nil, x => Slice.mk [x]
  | Slice.mk elems, x => Slice.mk (elems ++ [x])

/-- The elements of a slice, none for `nil`. -/
def Slice.elems : Slice T → List T
  | Slice.nil => []
  | Slice.mk elems => elems

/-- Method `List` again, with the slice value it returns rather than the
elements alone: `list := []T{}`, then `list = append(list, item)` on every key
that passes `k.(T)`. -/
def SyncSet.ListSlice [GoElem T A] (this : SyncSet T A) (o : Schedule (A × A)) : Slice T :=
  this.items.Range o
    (fun k _ list =>
      match GoElem.assertT k with
      | some item => (true, Slice.append list item)
      | none => (true, list))
    (Slice.mk [])

/-- Method `Range`: ranges over the map and calls `f` on every key that passes
`k.(T)`, returning what `f` returns; other keys are passed over. -/
def SyncSet.Range [GoElem T A] (this : SyncSet T A) (o : Schedule (A × A))
    (f : T → σ → Bool × σ) (st : σ) : σ :=
  this.items.Range o
    (fun k _ st =>
      match GoElem.assertT k with
      | some item => f item st
      | none => (true, st))
    st

/-- Method `Size`: ranges over the map and counts every entry.  The count is a Go
`int`; it cannot overflow, the entries being held in memory. -/
def SyncSet.Size (this : SyncSet T A) (o : Schedule (A × A)) : Nat :=
  this.items.Range o (fun _ _ count => (true, count + 1)) 0

/-- Method `Clear`: `this.items.Clear()`. -/
def SyncSet.Clear (this : SyncSet T A) : SyncSet T A :=
  ⟨this.items.Clear⟩

/-- Modelled from the spec: `Has`, which the tests call and `main.go` does not
define.  The spec: "true iff item is currently a member at the instant of the
check"; an item is a member when the map holds it as a key. -/
def SyncSet.Has [GoElem T A] [DecidableEq A] (this : SyncSet T A) (item : T) : Bool :=
  (this.items.Load (GoElem.toAny item)).isSome

/-! ## Sequences of calls and records of invocations -/

/-- A call of one of the three operations that change the set. -/
inductive Op (T : Type) where
  | add (x : T)
  | remove (x : T)
  | clear
  deriving DecidableEq

/-- The set after one call. -/
def Op.apply [GoElem T A] [DecidableEq A] (s : SyncSet T A) : Op T → SyncSet T A
  | Op.add x => s.Add x
  | Op.remove x => s.Remove x
  | Op.clear => s.Clear

/-- The set after a sequence of calls, first call first. -/
def applyOps [GoElem T A] [DecidableEq A] (s : SyncSet T A) (ops : List (Op T)) : SyncSet T A :=
  ops.foldl Op.apply s

/-- The set after a sequence of calls on a new set. -/
def run [GoElem T A] [DecidableEq A] (ops : List (Op T)) : SyncSet T A :=
  applyOps NewSyncSet ops

/-- The callback `f` keeping a record of its invocations: each item it is
called on, with what it returned. -/
def logged (f : T → σ → Bool × σ) (item : T) (st : σ × List (T × Bool)) :
    Bool × (σ × List (T × Bool)) :=
  match f item st.1 with
  | (b, st') => (b, (st', st.2 ++ [(item, b)]))

/-- The invocations of `f` made by `Range(f)`, in order. -/
def rangeCalls [GoElem T A] (this : SyncSet T A) (o : Schedule (A × A))
    (f : T → σ → Bool × σ) (st : σ) : List (T × Bool) :=
  (this.Range o (logged f) (st, [])).2

/-- The invocations of `f` by a loop over the items `l` that stops when `f`
returns false. -/
def callsOn (f : T → σ → Bool × σ) : List T → σ → List (T × Bool)
  | [], _ => []
  | x :: rest, st =>
    match f x st with
    | (true, st') => (x, true) :: callsOn f rest st'
    | (false, _) => [(x, false)]

/-- An item is a member when the map holds it as a key. -/
def SyncSet.Member [GoElem T A] (this : SyncSet T A) (item : T) : Prop :=
  GoElem.toAny item ∈ this.items.keys

instance [GoElem T A] [DecidableEq A] (this : SyncSet T A) (item : T) :
    Decidable (this.Member item) :=
  inferInstanceAs (Decidable (GoElem.toAny item ∈ this.items.keys))

/-- The call `Add(x)` is in `ops` and neither `Remove(x)` nor `Clear()` comes
after it. -/
def Live (x : T) (ops : List (Op T)) : Prop :=
  ∃ pre post, ops = pre ++ Op.add x :: post ∧ Op.remove x ∉ post ∧ Op.clear ∉ post

/-! ## The whole of `comparable`: keys that are not `==` to themselves, keys that cannot be hashed

The definitions above are those of the element types whose `==` is equality of
values and whose values can all be hashed.  The constraint `comparable` admits
more: `float64`, whose NaN is not `==` to itself, and interface types, whose
values can be of a dynamic type that cannot be hashed, on which `sync.Map`
panics.  The namespace `Full` has the same operations for every such type; on
the element types above the two agree (`Store_agrees_full`,
`Delete_agrees_full`). -/

/-- What `sync.Map` asks of a key.  A value of `A` stands for the values that
are `==` to one another, or for one that is `==` to nothing. -/
class GoKey (A : Type) where
  /-- whether `a == a`: false for a floating point NaN -/
  selfEq : A → Bool
  /-- whether the dynamic type of `a` can be hashed: false for a slice, a map, a
  function; `sync.Map` panics on such a key -/
  hashable : A → Bool

/-- Go's `a == b` on two keys. -/
def goEq [DecidableEq A] [GoKey A] (a b : A) : Bool :=
  decide (a = b) && GoKey.selfEq a

/-- A run-time panic. -/
inductive Panic where
  | unhashable
  deriving DecidableEq

/-- A `float64` up to `==`: a number, or a NaN. -/
inductive Float64 where
  | num (code : Nat)
  | nan
  deriving DecidableEq

/-- The values of `any` with the two kinds that `GoAny` leaves out: floating
point values and values of a slice type, which cannot be hashed. -/
inductive GoVal where
  | nil
  | str (s : String)
  | float (x : Float64)
  | slice (id : Nat)
  | unit
  deriving DecidableEq

instance : GoKey GoVal where
  selfEq := fun a => match a with
    | GoVal.float Float64.nan => false
    | _ => true
  hashable := fun a => match a with
    | GoVal.slice _ => false
    | _ => true

/-- On the values of `GoAny`, `==` is equality and every value can be hashed. -/
instance : GoKey GoAny where
  selfEq := fun _ => true
  hashable := fun _ => true

/-- The element type `T = float64`. -/
instance : GoElem Float64 GoVal where
  toAny := GoVal.float
  assertT := fun a => match a with
    | GoVal.float x => some x
    | _ => none
  sentinel := GoVal.unit
  toAny_inj := by intro x y h; cases h; rfl
  assert_sound := by
    intro a x h
    cases a <;> simp at h
    rw [h]

/-- The element type `T = any` over `GoVal`: `k.(T)` fails on the nil interface
value only. -/
instance : GoElem GoVal GoVal where
  toAny := fun a => a
  assertT := fun a => match a with
    | GoVal.nil => none
    | a => some a
  sentinel := GoVal.unit
  toAny_inj := by intro x y h; exact h
  assert_sound := by
    intro a x h
    cases a <;> simp at h <;> rw [h]

namespace Full

/-- The contents of a `sync.Map`: finitely many entries, no two keys `==`, every
key hashable. -/
structure SyncMap (K V : Type) [DecidableEq K] [GoKey K] where
  entries : List (K × V)
  distinctKeys : entries.Pairwise (fun a b => goEq a.1 b.1 = false)
  hashableKeys : ∀ e ∈ entries, GoKey.hashable e.1 = true

/-- The zero value `sync.Map{}`. -/
def SyncMap.empty [DecidableEq K] [GoKey K] : SyncMap K V :=
  ⟨[], List.Pairwise.nil, by intro e he; cases he⟩

/-- Go's `m.Store(key, value)`: panics on a key that cannot be hashed; sets the
value of the entry whose key is `==` to `key`, a new entry when there is none. -/
def SyncMap.Store [DecidableEq K] [GoKey K] (m : SyncMap K V) (key : K) (value : V) :
    Except Panic (SyncMap K V) :=
  if hk : GoKey.hashable key = true then
    if hp : m.entries.any (fun e => goEq e.1 key) = true then
      Except.ok
        ⟨m.entries.map (fun e => if goEq e.1 key = true then (e.1, value) else e), by
          rw [List.pairwise_map]
          refine m.distinctKeys.imp ?_
          intro a b hab
          by_cases ha : goEq a.1 key = true <;> by_cases hb : goEq b.1 key = true <;>
            simpa [ha, hb] using hab, by
          intro e he
          obtain ⟨e0, he0, rfl⟩ := List.mem_map.mp he
          have h0 := m.hashableKeys e0 he0
          by_cases ha : goEq e0.1 key = true <;> simpa [ha] using h0⟩
    else
      Except.ok
        ⟨m.entries ++ [(key, value)], by
          rw [List.pairwise_append]
          refine ⟨m.distinctKeys, List.pairwise_singleton _ _, ?_⟩
          intro a ha b hb
          have hb' : b = (key, value) := by simpa using hb
          rw [hb']
          have hnone : ¬ goEq a.1 key = true := fun h => hp (List.any_eq_true.mpr ⟨a, ha, h⟩)
          simpa using hnone, by
          intro e he
          rcases List.mem_append.mp he with h | h
          · exact m.hashableKeys e h
          · have h' : e = (key, value) := by simpa using h
            rw [h']
            exact hk⟩
  else
    Except.error Panic.unhashable

/-- Go's `m.Delete(key)`: panics on a key that cannot be hashed; deletes the
entry whose key is `==` to `key`, if there is one. -/
def SyncMap.Delete [DecidableEq K] [GoKey K] (m : SyncMap K V) (key : K) :
    Except Panic (SyncMap K V) :=
  if GoKey.hashable key = true then
    Except.ok
      ⟨m.entries.filter (fun e => !goEq e.1 key), m.distinctKeys.filter _,
        fun e he => m.hashableKeys e (List.mem_of_mem_filter he)⟩
  else
    Except.error Panic.unhashable

/-- Go's `m.Clear()`: deletes all the entries. -/
def SyncMap.Clear [DecidableEq K] [GoKey K] (_m : SyncMap K V) : SyncMap K V :=
  SyncMap.empty

/-- Go's `m.Range(f)`, by the same loop as above. -/
def SyncMap.Range [DecidableEq K] [GoKey K] (m : SyncMap K V) (o : Schedule (K × V))
    (f : K → V → σ → Bool × σ) (st : σ) : σ :=
  rangeLoop f (o.arrange m.entries) st

/-- The type `SyncSet[T comparable]`. -/
structure SyncSet (T A : Type) [DecidableEq A] [GoKey A] where
  items : SyncMap A A

/-- The constructor `NewSyncSet[T]()`. -/
def NewSyncSet [DecidableEq A] [GoKey A] : SyncSet T A :=
  ⟨SyncMap.empty⟩

/-- Method `Add`: `this.items.Store(item, struct{}{})`; a panic of `Store` is a
panic of `Add`. -/
def SyncSet.Add [DecidableEq A] [GoKey A] [GoElem T A] (this : SyncSet T A) (item : T) :
    Except Panic (SyncSet T A) :=
  match this.items.Store (GoElem.toAny item) (GoElem.sentinel T) with
  | Except.ok m => Except.ok ⟨m⟩
  | Except.error p => Except.error p

/-- Method `Remove`: `this.items.Delete(item)`; a panic of `Delete` is a panic of
`Remove`. -/
def SyncSet.Remove [DecidableEq A] [GoKey A] [GoElem T A] (this : SyncSet T A) (item : T) :
    Except Panic (SyncSet T A) :=
  match this.items.Delete (GoElem.toAny item) with
  | Except.ok m => Except.ok ⟨m⟩
  | Except.error p => Except.error p

/-- Method `List`: starts from the empty slice, ranges over the map and appends
every key that passes `k.(T)`. -/
def SyncSet.List [DecidableEq A] [GoKey A] [GoElem T A] (this : SyncSet T A)
    (o : Schedule (A × A)) : List T :=
  this.items.Range o
    (fun k _ list =>
      match GoElem.assertT k with
      | some item => (true, list ++ [item])
      | none => (true, list))
    []

/-- Method `Size`: ranges over the map and counts every entry. -/
def SyncSet.Size [DecidableEq A] [GoKey A] (this : SyncSet T A) (o : Schedule (A × A)) : Nat :=
  this.items.Range o (fun _ _ count => (true, count + 1)) 0

/-- Method `Clear`: `this.items.Clear()`. -/
def SyncSet.Clear [DecidableEq A] [GoKey A] (this : SyncSet T A) : SyncSet T A :=
  ⟨this.items.Clear⟩

/-- The map holds the item as a key: the item was added and has not been taken
out since. -/
def SyncSet.Holds [DecidableEq A] [GoKey A] [GoElem T A] (this : SyncSet T A) (item : T) :
    Prop :=
  GoElem.toAny item ∈ this.items.entries.map Prod.fst

instance [DecidableEq A] [GoKey A] [GoElem T A] (this : SyncSet T A) (item : T) :
    Decidable (this.Holds item) :=
  inferInstanceAs (Decidable (GoElem.toAny item ∈ this.items.entries.map Prod.fst))

/-- The set after one call, or the panic of the call. -/
def step [DecidableEq A] [GoKey A] [GoElem T A] (s : SyncSet T A) :
    Op T → Except Panic (SyncSet T A)
  | Op.add x => s.Add x
  | Op.remove x => s.Remove x
  | Op.clear => Except.ok s.Clear

/-- The set after a sequence of calls on the set `s`, first call first, or the
first panic. -/
def run [DecidableEq A] [GoKey A] [GoElem T A] : List (Op T) → SyncSet T A →
    Except Panic (SyncSet T A)
  | [], s => Except.ok s
  | op :: rest, s =>
    match step s op with
    | Except.ok s' => run rest s'
    | Except.error p => Except.error p

/-- A set of `float64` that holds two numbers, for the examples. -/
def twoFloats : SyncSet Float64 GoVal :=
  ⟨⟨[(GoVal.float (Float64.num 1), GoVal.unit), (GoVal.float (Float64.num 2), GoVal.unit)],
    by decide, by decide⟩⟩

/-- The set of `float64` that holds a third number after these two. -/
def threeFloats : SyncSet Float64 GoVal :=
  ⟨⟨[(GoVal.float (Float64.num 1), GoVal.unit), (GoVal.float (Float64.num 2), GoVal.unit),
      (GoVal.float (Float64.num 3), GoVal.unit)],
    by decide, by decide⟩⟩

end Full

/-! ## The map operations on keys -/

theorem SyncMap.length_keys (m : SyncMap K V) : m.keys.length = m.entries.length := by
  simp [SyncMap.keys]

theorem SyncMap.mem_keys_Store [DecidableEq K] (m : SyncMap K V) (key : K) (value : V) (k : K) :
    k ∈ (m.Store key value).keys ↔ k = key ∨ k ∈ m.keys := by
  unfold SyncMap.Store SyncMap.keys
  split
  · rename_i h
    have hk : (m.entries.map (fun e => if e.1 = key then (key, value) else e)).map Prod.fst
        = m.entries.map Prod.fst := by
      rw [List.map_map]
      apply List.map_congr_left
      intro e _
      by_cases he : e.1 = key <;> simp [he]
    simp only [hk]
    constructor
    · intro hmem
      exact Or.inr hmem
    · rintro (rfl | hmem)
      · exact h
      · exact hmem
  · simp only [List.map_append, List.map_cons, List.map_nil, List.mem_append, List.mem_singleton]
    tauto

theorem SyncMap.mem_keys_Delete [DecidableEq K] (m : SyncMap K V) (key : K) (k : K) :
    k ∈ (m.Delete key).keys ↔ k ≠ key ∧ k ∈ m.keys := by
  simp only [SyncMap.Delete, SyncMap.keys, List.mem_map, List.mem_filter, decide_eq_true_eq]
  constructor
  · rintro ⟨e, ⟨he, hne⟩, rfl⟩
    exact ⟨hne, e, he, rfl⟩
  · rintro ⟨hne, e, he, rfl⟩
    exact ⟨e, ⟨he, hne⟩, rfl⟩

theorem SyncMap.length_Store_of_mem [DecidableEq K] (m : SyncMap K V) (key : K) (value : V)
    (h : key ∈ m.keys) : (m.Store key value).entries.length = m.entries.length := by
  have h' : key ∈ m.entries.map Prod.fst := h
  unfold SyncMap.Store
  rw [dif_pos h']
  simp

theorem SyncMap.length_Store_of_not_mem [DecidableEq K] (m : SyncMap K V) (key : K) (value : V)
    (h : key ∉ m.keys) : (m.Store key value).entries.length = m.entries.length + 1 := by
  have h' : key ∉ m.entries.map Prod.fst := h
  unfold SyncMap.Store
  rw [dif_neg h']
  simp

/-! ## `Size` counts the entries -/

theorem rangeLoop_count (l : List (K × V)) (n : Nat) :
    rangeLoop (fun _ _ (count : Nat) => (true, count + 1)) l n = n + l.length := by
  induction l generalizing n with
  | nil => rfl
  | cons e rest ih =>
    simp only [rangeLoop, ih, List.length_cons]
    omega

theorem Size_eq_length (s : SyncSet T A) (o : Schedule (A × A)) :
    s.Size o = s.items.entries.length := by
  unfold SyncSet.Size SyncMap.Range
  rw [rangeLoop_count, (o.perm s.items.entries).length_eq]
  omega

theorem Size_eq_card [DecidableEq A] (s : SyncSet T A) (o : Schedule (A × A)) :
    s.Size o = s.items.keys.toFinset.card := by
  have h := List.toFinset_card_of_nodup s.items.nodupKeys
  rw [Size_eq_length, ← SyncMap.length_keys]
  exact h.symm

/-! ## Adding a sequence of items -/

theorem mem_keys_foldl_Add [GoElem T A] [DecidableEq A] (xs : List T) (s : SyncSet T A) (k : A) :
    k ∈ (xs.foldl SyncSet.Add s).items.keys ↔ k ∈ s.items.keys ∨ ∃ x ∈ xs, GoElem.toAny x = k := by
  induction xs generalizing s with
  | nil => simp
  | cons y rest ih =>
    rw [List.foldl_cons, ih]
    simp only [SyncSet.Add, SyncMap.mem_keys_Store, List.mem_cons, exists_eq_or_imp]
    constructor
    · rintro ((rfl | h) | h)
      · exact Or.inr (Or.inl rfl)
      · exact Or.inl h
      · exact Or.inr (Or.inr h)
    · rintro (h | h | h)
      · exact Or.inl (Or.inr h)
      · exact Or.inl (Or.inl h.symm)
      · exact Or.inr h

/-- C1: after `Add` on each item of a sequence, in order, on a new set, `Size()`
is the number of distinct items of the sequence, whatever the order of the
traversal. -/
theorem Size_after_adds [GoElem T A] [DecidableEq A] [DecidableEq T] (xs : List T)
    (o : Schedule (A × A)) :
    (xs.foldl SyncSet.Add (NewSyncSet : SyncSet T A)).Size o = xs.toFinset.card := by
  rw [Size_eq_card]
  have hkeys : (xs.foldl SyncSet.Add (NewSyncSet : SyncSet T A)).items.keys.toFinset
      = xs.toFinset.image GoElem.toAny := by
    ext k
    rw [List.mem_toFinset, mem_keys_foldl_Add, Finset.mem_image]
    simp [NewSyncSet, SyncMap.empty, SyncMap.keys]
  rw [hkeys]
  exact Finset.card_image_of_injective _ (fun x y h => GoElem.toAny_inj x y h)

/-! ## `List` returns the keys that pass the type assertion -/

theorem rangeLoop_collect [GoElem T A] (l : List (A × A)) (acc : List T) :
    rangeLoop
      (fun k (_ : A) (list : List T) =>
        match GoElem.assertT k with
        | some item => (true, list ++ [item])
        | none => (true, list))
      l acc
    = acc ++ l.filterMap (fun e => GoElem.assertT e.1) := by
  induction l generalizing acc with
  | nil => simp [rangeLoop]
  | cons e rest ih =>
    cases h : (GoElem.assertT e.1 : Option T) <;> simp [rangeLoop, h, ih]

theorem List_eq_filterMap [GoElem T A] (s : SyncSet T A) (o : Schedule (A × A)) :
    s.List o = (o.arrange s.items.entries).filterMap (fun e => GoElem.assertT e.1) := by
  unfold SyncSet.List SyncMap.Range
  rw [rangeLoop_collect]
  rfl

theorem mem_List_iff [GoElem T A] (s : SyncSet T A) (o : Schedule (A × A)) (x : T) :
    x ∈ s.List o ↔ s.Member x ∧ GoElem.assertT (GoElem.toAny x : A) = some x := by
  rw [List_eq_filterMap, List.mem_filterMap]
  constructor
  · rintro ⟨e, he, hx⟩
    have hk : GoElem.toAny x = e.1 := GoElem.assert_sound e.1 x hx
    refine ⟨?_, by rw [hk]; exact hx⟩
    have he' : e ∈ s.items.entries := (o.perm s.items.entries).mem_iff.mp he
    show GoElem.toAny x ∈ s.items.entries.map Prod.fst
    rw [hk]
    exact List.mem_map_of_mem Prod.fst he'
  · rintro ⟨hm, hx⟩
    obtain ⟨e, he, hk⟩ := List.mem_map.mp hm
    refine ⟨e, (o.perm s.items.entries).mem_iff.mpr he, ?_⟩
    rw [hk]
    exact hx

theorem List_eq_filterMap_keys [GoElem T A] (s : SyncSet T A) (o : Schedule (A × A)) :
    s.List o = ((o.arrange s.items.entries).map Prod.fst).filterMap GoElem.assertT := by
  rw [List_eq_filterMap, List.filterMap_map]
  rfl

/-- No item is twice in the slice that `List()` returns. -/
theorem List_nodup [GoElem T A] (s : SyncSet T A) (o : Schedule (A × A)) :
    (s.List o).Nodup := by
  rw [List_eq_filterMap_keys]
  refine List.Nodup.filterMap ?_ (((o.perm s.items.entries).map Prod.fst).nodup_iff.mpr
    s.items.nodupKeys)
  intro a a' b hb hb'
  rw [← GoElem.assert_sound a b hb, ← GoElem.assert_sound a' b hb']

/-- The slice that `List()` returns is no longer than `Size()`. -/
theorem List_length_le_Size [GoElem T A] (s : SyncSet T A) (o o' : Schedule (A × A)) :
    (s.List o).length ≤ s.Size o' := by
  rw [Size_eq_length, List_eq_filterMap, ← (o.perm s.items.entries).length_eq]
  exact List.length_filterMap_le _ _

/-! ## Membership after each operation -/

theorem Member_Add [GoElem T A] [DecidableEq A] (s : SyncSet T A) (x y : T) :
    (s.Add x).Member y ↔ y = x ∨ s.Member y := by
  unfold SyncSet.Member SyncSet.Add
  rw [SyncMap.mem_keys_Store]
  constructor
  · rintro (h | h)
    · exact Or.inl (GoElem.toAny_inj y x h)
    · exact Or.inr h
  · rintro (h | h)
    · exact Or.inl (by rw [h])
    · exact Or.inr h

theorem Member_Remove [GoElem T A] [DecidableEq A] (s : SyncSet T A) (x y : T) :
    (s.Remove x).Member y ↔ y ≠ x ∧ s.Member y := by
  unfold SyncSet.Member SyncSet.Remove
  rw [SyncMap.mem_keys_Delete]
  constructor
  · rintro ⟨hne, h⟩
    exact ⟨fun hxy => hne (by rw [hxy]), h⟩
  · rintro ⟨hne, h⟩
    exact ⟨fun hxy => hne (GoElem.toAny_inj y x hxy), h⟩

theorem Member_Clear [GoElem T A] (s : SyncSet T A) (y : T) : ¬ (s.Clear).Member y := by
  simp [SyncSet.Member, SyncSet.Clear, SyncMap.Clear, SyncMap.empty, SyncMap.keys]

theorem Member_New [GoElem T A] (y : T) : ¬ (NewSyncSet : SyncSet T A).Member y := by
  simp [SyncSet.Member, NewSyncSet, SyncMap.empty, SyncMap.keys]

theorem Live_cons (x : T) (op : Op T) (rest : List (Op T)) :
    Live x (op :: rest) ↔
      Live x rest ∨ (op = Op.add x ∧ Op.remove x ∉ rest ∧ Op.clear ∉ rest) := by
  constructor
  · rintro ⟨pre, post, h, hr, hc⟩
    cases pre with
    | nil =>
      simp only [List.nil_append, List.cons.injEq] at h
      obtain ⟨h1, h2⟩ := h
      subst h1 h2
      exact Or.inr ⟨rfl, hr, hc⟩
    | cons p pre' =>
      simp only [List.cons_append, List.cons.injEq] at h
      exact Or.inl ⟨pre', post, h.2, hr, hc⟩
  · rintro (⟨pre, post, h, hr, hc⟩ | ⟨h, hr, hc⟩)
    · exact ⟨op :: pre, post, by rw [h]; rfl, hr, hc⟩
    · exact ⟨[], rest, by rw [h]; rfl, hr, hc⟩

theorem Member_applyOps [GoElem T A] [DecidableEq A] (ops : List (Op T)) (s : SyncSet T A)
    (x : T) :
    (applyOps s ops).Member x ↔
      Live x ops ∨ (s.Member x ∧ Op.remove x ∉ ops ∧ Op.clear ∉ ops) := by
  induction ops generalizing s with
  | nil =>
    simp [applyOps, Live]
  | cons op rest ih =>
    have hstep : applyOps s (op :: rest) = applyOps (Op.apply s op) rest := rfl
    rw [hstep, ih, Live_cons]
    cases op with
    | add y =>
      simp only [Op.apply, Member_Add, List.mem_cons, Op.add.injEq, not_or]
      constructor
      · rintro (h | ⟨h | h, hr, hc⟩)
        · exact Or.inl (Or.inl h)
        · exact Or.inl (Or.inr ⟨h.symm, hr, hc⟩)
        · exact Or.inr ⟨h, ⟨by simp, hr⟩, ⟨by simp, hc⟩⟩
      · rintro ((h | ⟨h, hr, hc⟩) | ⟨h, ⟨_, hr⟩, ⟨_, hc⟩⟩)
        · exact Or.inl h
        · exact Or.inr ⟨Or.inl h.symm, hr, hc⟩
        · exact Or.inr ⟨Or.inr h, hr, hc⟩
    | remove y =>
      simp only [Op.apply, Member_Remove, List.mem_cons, Op.remove.injEq, not_or]
      constructor
      · rintro (h | ⟨⟨hne, h⟩, hr, hc⟩)
        · exact Or.inl (Or.inl h)
        · exact Or.inr ⟨h, ⟨hne, hr⟩, ⟨by simp, hc⟩⟩
      · rintro ((h | ⟨h, _⟩) | ⟨h, ⟨hne, hr⟩, ⟨_, hc⟩⟩)
        · exact Or.inl h
        · exact absurd h (by simp)
        · exact Or.inr ⟨⟨hne, h⟩, hr, hc⟩
    | clear =>
      simp only [Op.apply, List.mem_cons, not_or]
      constructor
      · rintro (h | ⟨h, _⟩)
        · exact Or.inl (Or.inl h)
        · exact absurd h (Member_Clear s x)
      · rintro ((h | ⟨h, _⟩) | ⟨_, _, ⟨h, _⟩⟩)
        · exact Or.inl h
        · exact absurd h (by simp)
        · exact absurd trivial h

theorem Member_run [GoElem T A] [DecidableEq A] (ops : List (Op T)) (x : T) :
    (run ops : SyncSet T A).Member x ↔ Live x ops := by
  unfold run
  rw [Member_applyOps]
  constructor
  · rintro (h | ⟨h, _⟩)
    · exact h
    · exact absurd h (Member_New x)
  · exact Or.inl

/-- What `List()` returns after a sequence of calls on a new set: the items
added and not removed since, on which the type assertion `k.(T)` succeeds. -/
theorem mem_List_run [GoElem T A] [DecidableEq A] (ops : List (Op T)) (o : Schedule (A × A))
    (x : T) :
    x ∈ (run ops : SyncSet T A).List o ↔
      Live x ops ∧ GoElem.assertT (GoElem.toAny x : A) = some x := by
  rw [mem_List_iff, Member_run]

/-- C2, at `T = any`: after `Add(nil)` on a new set the nil item is a member
that no `Remove` or `Clear` follows and `Size()` is 1, and yet `List()` does
not return it, in any order of traversal. -/
theorem List_omits_added_nil (o : Schedule (GoAny × GoAny)) :
    Live GoAny.nil [Op.add GoAny.nil] ∧
      (run [Op.add GoAny.nil] : SyncSet GoAny GoAny).Size o = 1 ∧
      GoAny.nil ∉ (run [Op.add GoAny.nil] : SyncSet GoAny GoAny).List o := by
  refine ⟨⟨[], [], rfl, by simp, by simp⟩, ?_, ?_⟩
  · rw [Size_eq_length]
    rfl
  · rw [mem_List_run]
    rintro ⟨_, h⟩
    exact absurd h (by simp [GoElem.assertT, GoElem.toAny])

/-! ## `Has` -/

theorem Has_iff_Member [GoElem T A] [DecidableEq A] (s : SyncSet T A) (x : T) :
    s.Has x = true ↔ s.Member x := by
  unfold SyncSet.Has SyncSet.Member SyncMap.Load SyncMap.keys
  simp only [Option.isSome_map', List.find?_isSome, List.mem_map]
  constructor
  · rintro ⟨e, he, hk⟩
    exact ⟨e, he, by simpa using hk⟩
  · rintro ⟨e, he, hk⟩
    exact ⟨e, he, by simpa using hk⟩

theorem Has_eq_false_iff [GoElem T A] [DecidableEq A] (s : SyncSet T A) (x : T) :
    s.Has x = false ↔ ¬ s.Member x := by
  rw [← Has_iff_Member, Bool.not_eq_true]

theorem Live_add_mem (x : T) (ops : List (Op T)) (h : Live x ops) : Op.add x ∈ ops := by
  obtain ⟨pre, post, hops, _, _⟩ := h
  rw [hops]
  simp

/-- C3, as stated, fails: after `Add("a")` a `Clear()` follows and no
`Remove("a")`, and `Has("a")` is false. -/
theorem Has_false_after_Clear :
    Op.remove "a" ∉ [(Op.clear : Op String)] ∧
      (applyOps ((NewSyncSet : SyncSet String GoAny).Add "a") [Op.clear]).Has "a" = false := by
  decide

/-- C3, amended: `Has(x)` is true after `Add(x)` as long as neither `Remove(x)`
nor `Clear()` has followed; `Has(x)` is false after `Remove(x)` as long as no
`Add(x)` has followed; and `Has(y)` is false on a set on which `Add(y)` was
never called. -/
theorem Has_after_calls [GoElem T A] [DecidableEq A] (s : SyncSet T A) (x y : T) :
    (∀ ops : List (Op T), Op.remove x ∉ ops → Op.clear ∉ ops →
        (applyOps (s.Add x) ops).Has x = true) ∧
      (∀ ops : List (Op T), Op.add x ∉ ops → (applyOps (s.Remove x) ops).Has x = false) ∧
      (∀ ops : List (Op T), Op.add y ∉ ops → (run ops : SyncSet T A).Has y = false) := by
  refine ⟨?_, ?_, ?_⟩
  · intro ops hr hc
    rw [Has_iff_Member, Member_applyOps]
    exact Or.inr ⟨(Member_Add s x x).mpr (Or.inl rfl), hr, hc⟩
  · intro ops ha
    rw [Has_eq_false_iff, Member_applyOps]
    rintro (h | ⟨h, _⟩)
    · exact ha (Live_add_mem x ops h)
    · exact ((Member_Remove s x x).mp h).1 rfl
  · intro ops ha
    rw [Has_eq_false_iff, Member_run]
    intro h
    exact ha (Live_add_mem y ops h)

theorem Has_after_calls_witness :
    (Op.remove "a" ∉ [Op.add "b", Op.remove "b"] ∧ Op.clear ∉ [Op.add "b", Op.remove "b"] ∧
        (applyOps ((NewSyncSet : SyncSet String GoAny).Add "a")
          [Op.add "b", Op.remove "b"]).Has "a" = true) ∧
      (Op.add "a" ∉ [Op.add "b", Op.remove "b"] ∧
        (applyOps ((run [Op.add "a"] : SyncSet String GoAny).Remove "a")
          [Op.add "b", Op.remove "b"]).Has "a" = false) ∧
      (Op.add "c" ∉ [Op.add "a", Op.remove "a"] ∧
        (run [Op.add "a", Op.remove "a"] : SyncSet String GoAny).Has "c" = false) :=
  ⟨⟨by decide, by decide,
      (Has_after_calls (NewSyncSet : SyncSet String GoAny) "a" "c").1 _ (by decide) (by decide)⟩,
    ⟨by decide,
      (Has_after_calls (run [Op.add "a"] : SyncSet String GoAny) "a" "c").2.1 _ (by decide)⟩,
    ⟨by decide,
      (Has_after_calls (NewSyncSet : SyncSet String GoAny) "a" "c").2.2 _ (by decide)⟩⟩

/-! ## `Size` after `Add` and `Remove` -/

theorem Size_Add_of_Member [GoElem T A] [DecidableEq A] (s : SyncSet T A) (x : T)
    (h : s.Member x) (o o' : Schedule (A × A)) : (s.Add x).Size o = s.Size o' := by
  rw [Size_eq_length, Size_eq_length]
  exact SyncMap.length_Store_of_mem s.items _ _ h

theorem Size_Add_of_not_Member [GoElem T A] [DecidableEq A] (s : SyncSet T A) (x : T)
    (h : ¬ s.Member x) (o o' : Schedule (A × A)) : (s.Add x).Size o = s.Size o' + 1 := by
  rw [Size_eq_length, Size_eq_length]
  exact SyncMap.length_Store_of_not_mem s.items _ _ h

theorem Size_Remove_of_Member [GoElem T A] [DecidableEq A] (s : SyncSet T A) (x : T)
    (h : s.Member x) (o o' : Schedule (A × A)) : (s.Remove x).Size o + 1 = s.Size o' := by
  have hkeys : (s.Remove x).items.keys.toFinset = s.items.keys.toFinset.erase (GoElem.toAny x) := by
    ext k
    rw [List.mem_toFinset, Finset.mem_erase, List.mem_toFinset]
    exact SyncMap.mem_keys_Delete s.items _ k
  have hx : GoElem.toAny x ∈ s.items.keys.toFinset := List.mem_toFinset.mpr h
  rw [Size_eq_card, Size_eq_card, hkeys, Finset.card_erase_of_mem hx]
  have hpos : 0 < s.items.keys.toFinset.card := Finset.card_pos.mpr ⟨_, hx⟩
  omega

theorem SyncMap.eq_of_entries (m m' : SyncMap K V) (h : m.entries = m'.entries) : m = m' := by
  cases m
  cases m'
  simp only at h
  subst h
  rfl

theorem Remove_eq_self [GoElem T A] [DecidableEq A] (s : SyncSet T A) (x : T)
    (h : ¬ s.Member x) : s.Remove x = s := by
  have hent : (s.items.Delete (GoElem.toAny x)).entries = s.items.entries := by
    unfold SyncMap.Delete
    simp only [List.filter_eq_self, decide_eq_true_eq]
    intro e he hk
    have hm : e.1 ∈ s.items.entries.map Prod.fst := List.mem_map_of_mem Prod.fst he
    rw [hk] at hm
    exact h hm
  cases s with
  | mk items =>
    simp only [SyncSet.Remove, SyncSet.mk.injEq]
    exact SyncMap.eq_of_entries _ _ hent

/-! ## `Clear` -/

theorem arrange_nil {α : Type} (o : Schedule α) : o.arrange [] = [] :=
  List.Perm.eq_nil (o.perm [])

/-- C7: after `Clear()`, `Size()` is 0, `List()` is empty, no item is a member
and `Range` calls its callback on nothing. -/
theorem Clear_empties [GoElem T A] (s : SyncSet T A) (o : Schedule (A × A))
    (f : T → σ → Bool × σ) (st : σ) :
    s.Clear.Size o = 0 ∧
      s.Clear.List o = [] ∧
      (∀ x, ¬ s.Clear.Member x) ∧
      rangeCalls s.Clear o f st = [] := by
  refine ⟨?_, ?_, Member_Clear s, ?_⟩
  · rw [Size_eq_length]
    rfl
  · rw [List_eq_filterMap]
    simp [SyncSet.Clear, SyncMap.Clear, SyncMap.empty, arrange_nil]
  · simp [rangeCalls, SyncSet.Range, SyncMap.Range, SyncSet.Clear, SyncMap.Clear,
      SyncMap.empty, arrange_nil, rangeLoop]

/-! ## `Range` and the record of its invocations -/

theorem rangeLoop_logged [GoElem T A] (f : T → σ → Bool × σ) (l : List (A × A)) (st : σ)
    (acc : List (T × Bool)) :
    (rangeLoop
      (fun k (_ : A) (st : σ × List (T × Bool)) =>
        match GoElem.assertT k with
        | some item => logged f item st
        | none => (true, st))
      l (st, acc)).2
    = acc ++ callsOn f (l.filterMap (fun e => GoElem.assertT e.1)) st := by
  induction l generalizing st acc with
  | nil => simp [rangeLoop, callsOn]
  | cons e rest ih =>
    cases h : (GoElem.assertT e.1 : Option T) with
    | none => simp [rangeLoop, h, ih]
    | some item =>
      rcases hf : f item st with ⟨b, st'⟩
      have hlog : logged f item (st, acc) = (b, (st', acc ++ [(item, b)])) := by
        simp [logged, hf]
      cases b <;> simp [rangeLoop, h, hlog, hf, callsOn, ih]

/-- Keeping the record does not change what the callback does to its state. -/
theorem rangeLoop_logged_fst [GoElem T A] (f : T → σ → Bool × σ) (l : List (A × A)) (st : σ)
    (acc : List (T × Bool)) :
    (rangeLoop
      (fun k (_ : A) (st : σ × List (T × Bool)) =>
        match GoElem.assertT k with
        | some item => logged f item st
        | none => (true, st))
      l (st, acc)).1
    = rangeLoop
      (fun k (_ : A) (st : σ) =>
        match GoElem.assertT k with
        | some item => f item st
        | none => (true, st))
      l st := by
  induction l generalizing st acc with
  | nil => simp [rangeLoop]
  | cons e rest ih =>
    cases h : (GoElem.assertT e.1 : Option T) with
    | none => simp [rangeLoop, h, ih]
    | some item =>
      rcases hf : f item st with ⟨b, st'⟩
      have hlog : logged f item (st, acc) = (b, (st', acc ++ [(item, b)])) := by
        simp [logged, hf]
      cases b <;> simp [rangeLoop, h, hlog, hf, ih]

theorem Range_logged [GoElem T A] (s : SyncSet T A) (o : Schedule (A × A))
    (f : T → σ → Bool × σ) (st : σ) :
    (s.Range o (logged f) (st, [])).1 = s.Range o f st := by
  unfold SyncSet.Range SyncMap.Range
  exact rangeLoop_logged_fst f _ st []

theorem rangeCalls_eq [GoElem T A] (s : SyncSet T A) (o : Schedule (A × A))
    (f : T → σ → Bool × σ) (st : σ) :
    rangeCalls s o f st = callsOn f (s.List o) st := by
  unfold rangeCalls SyncSet.Range SyncMap.Range
  rw [rangeLoop_logged, List_eq_filterMap]
  rfl

theorem callsOn_take (f : T → σ → Bool × σ) (l : List T) (st : σ) :
    (callsOn f l st).map Prod.fst = l.take (callsOn f l st).length := by
  induction l generalizing st with
  | nil => simp [callsOn]
  | cons x rest ih =>
    rcases hf : f x st with ⟨b, st'⟩
    cases b
    · simp [callsOn, hf]
    · simp [callsOn, hf, ih st']

theorem callsOn_stops (f : T → σ → Bool × σ) (l : List T) (st : σ)
    (pre : List (T × Bool)) (e : T × Bool) (post : List (T × Bool))
    (hc : callsOn f l st = pre ++ e :: post) (he : e.2 = false) : post = [] := by
  induction l generalizing st pre with
  | nil => simp [callsOn] at hc
  | cons x rest ih =>
    rcases hf : f x st with ⟨b, st'⟩
    cases b
    · simp only [callsOn, hf] at hc
      cases pre with
      | nil =>
        simp only [List.nil_append, List.cons.injEq] at hc
        exact hc.2.symm
      | cons p pre' =>
        simp only [List.cons_append, List.cons.injEq] at hc
        exact absurd hc.2 (by simp)
    · simp only [callsOn, hf] at hc
      cases pre with
      | nil =>
        simp only [List.nil_append, List.cons.injEq] at hc
        rw [← hc.1] at he
        exact absurd he (by simp)
      | cons p pre' =>
        simp only [List.cons_append, List.cons.injEq] at hc
        exact ih st' pre' hc.2

theorem callsOn_short (f : T → σ → Bool × σ) (l : List T) (st : σ)
    (h : (callsOn f l st).length < l.length) :
    ∃ x, (callsOn f l st).getLast? = some (x, false) := by
  induction l generalizing st with
  | nil => simp at h
  | cons x rest ih =>
    rcases hf : f x st with ⟨b, st'⟩
    cases b
    · exact ⟨x, by simp [callsOn, hf]⟩
    · simp only [callsOn, hf, List.length_cons, Nat.add_lt_add_iff_right] at h
      obtain ⟨y, hy⟩ := ih st' h
      refine ⟨y, ?_⟩
      simp only [callsOn, hf]
      cases hc : callsOn f rest st' with
      | nil => rw [hc] at hy; simp at hy
      | cons c cs => rw [hc] at hy; rw [List.getLast?_cons_cons]; exact hy

theorem callsOn_all_true (f : T → σ → Bool × σ) (hf : ∀ x st, (f x st).1 = true)
    (l : List T) (st : σ) : (callsOn f l st).map Prod.fst = l := by
  induction l generalizing st with
  | nil => simp [callsOn]
  | cons x rest ih =>
    rcases hfx : f x st with ⟨b, st'⟩
    have hb : b = true := by have := hf x st; rw [hfx] at this; exact this
    subst hb
    simp [callsOn, hfx, ih st']

/-- C8: the early stop of `Range`.  With `s.List o` the items in the order in
which this call traverses them: the items on which `f` is invoked are an
initial segment of the traversal; an invocation that returns false is the last
one; the traversal is cut short only by an invocation that returns false; and
when `f` returns false on the first item, that item is the only one visited. -/
theorem Range_early_stop [GoElem T A] (s : SyncSet T A) (o : Schedule (A × A))
    (f : T → σ → Bool × σ) (st : σ) :
    (rangeCalls s o f st).map Prod.fst = (s.List o).take (rangeCalls s o f st).length ∧
      (∀ pre e post, rangeCalls s o f st = pre ++ e :: post → e.2 = false → post = []) ∧
      ((rangeCalls s o f st).length < (s.List o).length →
        ∃ x, (rangeCalls s o f st).getLast? = some (x, false)) ∧
      (∀ x rest, s.List o = x :: rest → (f x st).1 = false →
        rangeCalls s o f st = [(x, false)]) := by
  rw [rangeCalls_eq]
  refine ⟨callsOn_take f _ st, fun pre e post => callsOn_stops f _ st pre e post,
    callsOn_short f _ st, ?_⟩
  intro x rest hl hx
  rw [hl]
  rcases hf : f x st with ⟨b, st'⟩
  rw [hf] at hx
  simp only at hx
  subst hx
  simp [callsOn, hf]

theorem Range_early_stop_witness :
    (run [Op.add "item1", Op.add "item2", Op.add "item3"] : SyncSet String GoAny).List
        (Schedule.inOrder _) = "item1" :: ["item2", "item3"] ∧
      ((fun (_ : String) (n : Nat) => (false, n + 1)) "item1" 0).1 = false ∧
      rangeCalls (run [Op.add "item1", Op.add "item2", Op.add "item3"] : SyncSet String GoAny)
        (Schedule.inOrder _) (fun (_ : String) (n : Nat) => (false, n + 1)) 0
        = [("item1", false)] :=
  ⟨by decide, rfl,
    (Range_early_stop (run [Op.add "item1", Op.add "item2", Op.add "item3"])
      (Schedule.inOrder _) (fun (_ : String) (n : Nat) => (false, n + 1)) 0).2.2.2
      "item1" ["item2", "item3"] (by decide) rfl⟩

/-- C9: when the callback always returns true, the items on which `Range`
invokes it are, as a set, the items returned by `List()`, each traversal in
its own order. -/
theorem List_Range_agree [GoElem T A] (s : SyncSet T A) (o₁ o₂ : Schedule (A × A))
    (f : T → σ → Bool × σ) (st : σ) (hf : ∀ x st, (f x st).1 = true) (x : T) :
    x ∈ s.List o₁ ↔ x ∈ (rangeCalls s o₂ f st).map Prod.fst := by
  rw [rangeCalls_eq, callsOn_all_true f hf, mem_List_iff, mem_List_iff]

theorem List_Range_agree_witness :
    (∀ (x : String) (st : List String),
        ((fun (v : String) (results : List String) => (true, results ++ [v])) x st).1 = true) ∧
      ("item2" ∈ (run [Op.add "item1", Op.add "item2"] : SyncSet String GoAny).List
          (Schedule.inOrder _) ↔
        "item2" ∈ (rangeCalls (run [Op.add "item1", Op.add "item2"] : SyncSet String GoAny)
          (Schedule.reversed _)
          (fun (v : String) (results : List String) => (true, results ++ [v])) []).map
            Prod.fst) :=
  ⟨fun _ _ => rfl,
    List_Range_agree (run [Op.add "item1", Op.add "item2"]) (Schedule.inOrder _)
      (Schedule.reversed _) (fun (v : String) (results : List String) => (true, results ++ [v]))
      [] (fun _ _ => rfl) "item2"⟩

/-- When the callback always returns true, `Range` invokes it on the items of
`List()`, in the order of its traversal. -/
theorem Range_visits_List [GoElem T A] (s : SyncSet T A) (o : Schedule (A × A))
    (f : T → σ → Bool × σ) (st : σ) (hf : ∀ x st, (f x st).1 = true) :
    (rangeCalls s o f st).map Prod.fst = s.List o := by
  rw [rangeCalls_eq, callsOn_all_true f hf]

theorem arrange_singleton {α : Type} (o : Schedule α) (a : α) : o.arrange [a] = [a] :=
  List.perm_singleton.mp (o.perm [a])

/-- C10, at `T = any`: the set after `Add(nil)` on a new set has one member,
the nil item, and `Size()` is 1, and yet `Range` invokes its callback on
nothing, whatever the callback returns and whatever the order of traversal. -/
theorem Range_skips_nil_member (o : Schedule (GoAny × GoAny)) (f : GoAny → σ → Bool × σ)
    (st : σ) :
    ((NewSyncSet : SyncSet GoAny GoAny).Add GoAny.nil).Member GoAny.nil ∧
      ((NewSyncSet : SyncSet GoAny GoAny).Add GoAny.nil).Size o = 1 ∧
      rangeCalls ((NewSyncSet : SyncSet GoAny GoAny).Add GoAny.nil) o f st = [] := by
  refine ⟨by decide, ?_, ?_⟩
  · rw [Size_eq_length]
    rfl
  · rw [rangeCalls_eq, List_eq_filterMap]
    have hent : ((NewSyncSet : SyncSet GoAny GoAny).Add GoAny.nil).items.entries
        = [(GoAny.nil, GoAny.unit)] := rfl
    rw [hent, arrange_singleton]
    rfl

/-! ## The slice that `List` returns -/

theorem rangeLoop_collect_slice [GoElem T A] (l : List (A × A)) (acc : List T) :
    rangeLoop
      (fun k (_ : A) (list : Slice T) =>
        match GoElem.assertT k with
        | some item => (true, Slice.append list item)
        | none => (true, list))
      l (Slice.mk acc)
    = Slice.mk (acc ++ l.filterMap (fun e => GoElem.assertT e.1)) := by
  induction l generalizing acc with
  | nil => simp [rangeLoop]
  | cons e rest ih =>
    have happ : ∀ item : T, Slice.append (Slice.mk acc) item = Slice.mk (acc ++ [item]) :=
      fun _ => rfl
    cases h : (GoElem.assertT e.1 : Option T) <;> simp [rangeLoop, h, happ, ih]

/-- The slice that `List()` returns is not `nil`, and its elements are those of
`SyncSet.List`. -/
theorem ListSlice_eq [GoElem T A] (s : SyncSet T A) (o : Schedule (A × A)) :
    s.ListSlice o = Slice.mk (s.List o) := by
  unfold SyncSet.ListSlice SyncMap.Range
  rw [rangeLoop_collect_slice, List_eq_filterMap]
  rfl

/-! ## Invariants of the sets reached from `NewSyncSet` -/

/-- C11: no duplicates.  On every set reached from `NewSyncSet` by `Add`,
`Remove` and `Clear` calls, the slice returned by `List()` holds no item twice,
in any order of traversal. -/
theorem List_no_duplicates [GoElem T A] [DecidableEq A] (ops : List (Op T))
    (o : Schedule (A × A)) :
    ((run ops : SyncSet T A).List o).Nodup ∧
      ((run ops : SyncSet T A).ListSlice o).elems.Nodup := by
  have h := List_nodup (run ops : SyncSet T A) o
  refine ⟨h, ?_⟩
  rw [ListSlice_eq]
  exact h

/-- C12: key identity of pointers.  Two distinct pointers are two elements,
also when the functions they point to are the same: after `Add(p); Add(q)` on
a new set, `Size()` is 2 and `List()` contains both `p` and `q`. -/
theorem distinct_pointers_retained (heap : Nat → Int → Int) (p q : Ptr) (hpq : p ≠ q)
    (_hsame : heap p.addr = heap q.addr) (o : Schedule (GoAny × GoAny)) :
    (((NewSyncSet : SyncSet Ptr GoAny).Add p).Add q).Size o = 2 ∧
      p ∈ (((NewSyncSet : SyncSet Ptr GoAny).Add p).Add q).List o ∧
      q ∈ (((NewSyncSet : SyncSet Ptr GoAny).Add p).Add q).List o := by
  have hp : ¬ (NewSyncSet : SyncSet Ptr GoAny).Member p := Member_New p
  have hq : ¬ ((NewSyncSet : SyncSet Ptr GoAny).Add p).Member q := by
    rw [Member_Add]
    rintro (h | h)
    · exact hpq h.symm
    · exact Member_New q h
  refine ⟨?_, ?_, ?_⟩
  · rw [Size_Add_of_not_Member _ q hq o o, Size_Add_of_not_Member _ p hp o o, Size_eq_length]
    rfl
  · rw [mem_List_iff, Member_Add, Member_Add]
    exact ⟨Or.inr (Or.inl rfl), rfl⟩
  · rw [mem_List_iff, Member_Add]
    exact ⟨Or.inl rfl, rfl⟩

theorem distinct_pointers_retained_witness :
    (⟨1⟩ : Ptr) ≠ ⟨2⟩ ∧
      (fun (_ : Nat) (value : Int) => value + 3) (1 : Nat)
        = (fun (_ : Nat) (value : Int) => value + 3) (2 : Nat) ∧
      (((NewSyncSet : SyncSet Ptr GoAny).Add ⟨1⟩).Add ⟨2⟩).Size (Schedule.reversed _) = 2 :=
  ⟨by decide, rfl,
    (distinct_pointers_retained (fun _ value => value + 3) ⟨1⟩ ⟨2⟩ (by decide) rfl
      (Schedule.reversed _)).1⟩

/-- C13: a set returned by `NewSyncSet` is empty.  `Size()` is 0, `List()`
returns the empty slice, which is not `nil`, and `Range` invokes its callback
on nothing. -/
theorem NewSyncSet_empty [GoElem T A] (o : Schedule (A × A)) (f : T → σ → Bool × σ) (st : σ) :
    (NewSyncSet : SyncSet T A).Size o = 0 ∧
      (NewSyncSet : SyncSet T A).ListSlice o = Slice.mk [] ∧
      (NewSyncSet : SyncSet T A).ListSlice o ≠ Slice.nil ∧
      (NewSyncSet : SyncSet T A).List o = [] ∧
      rangeCalls (NewSyncSet : SyncSet T A) o f st = [] ∧
      (NewSyncSet : SyncSet T A).Range o f st = st := by
  have hl : (NewSyncSet : SyncSet T A).List o = [] := by
    rw [List_eq_filterMap]
    simp [NewSyncSet, SyncMap.empty, arrange_nil]
  refine ⟨?_, ?_, ?_, hl, ?_, ?_⟩
  · rw [Size_eq_length]
    rfl
  · rw [ListSlice_eq, hl]
  · rw [ListSlice_eq]
    simp
  · rw [rangeCalls_eq, hl]
    rfl
  · simp [SyncSet.Range, SyncMap.Range, NewSyncSet, SyncMap.empty, arrange_nil, rangeLoop]

/-! ## Keys that the type assertion rejects -/

theorem rangeLoop_skip (g : K → V → σ → Bool × σ) (pre post : List (K × V)) (e : K × V)
    (he : ∀ st, g e.1 e.2 st = (true, st)) (st : σ) :
    rangeLoop g (pre ++ e :: post) st = rangeLoop g (pre ++ post) st := by
  induction pre generalizing st with
  | nil => simp [rangeLoop, he]
  | cons p pre' ih =>
    rcases hg : g p.1 p.2 st with ⟨b, st'⟩
    cases b <;> simp [rangeLoop, hg, ih]

theorem List_ne_of_assert_none [GoElem T A] (s : SyncSet T A) (o : Schedule (A × A)) (k : A)
    (hk : GoElem.assertT k = (none : Option T)) (x : T) (hx : x ∈ s.List o) :
    GoElem.toAny x ≠ k := by
  intro h
  have hs := ((mem_List_iff s o x).mp hx).2
  rw [h, hk] at hs
  exact absurd hs (by simp)

/-- C15: an entry whose key fails the type assertion `k.(T)` is passed over.
Let the traversal of `s` be `pre`, then the entry of such a key `k`, then
`post`, and let `s'` be traversed as `pre`, then `post`.  `List()` returns the
same on `s` as on `s'` and no element of it is `k`; `Range(f)` makes the same
invocations of `f`, none of them on `k`, and leaves the callback in the same
state.  Both are total functions: there is no error value. -/
theorem traversal_skips_foreign_key [GoElem T A] (s s' : SyncSet T A)
    (o o' : Schedule (A × A)) (f : T → σ → Bool × σ) (st : σ) (pre post : List (A × A))
    (k v : A)
    (htrav : o.arrange s.items.entries = pre ++ (k, v) :: post)
    (htrav' : o'.arrange s'.items.entries = pre ++ post)
    (hk : GoElem.assertT k = (none : Option T)) :
    s.List o = s'.List o' ∧
      (∀ x ∈ s.List o, GoElem.toAny x ≠ k) ∧
      s.Range o f st = s'.Range o' f st ∧
      rangeCalls s o f st = rangeCalls s' o' f st ∧
      (∀ c ∈ rangeCalls s o f st, GoElem.toAny c.1 ≠ k) := by
  have hlist : s.List o = s'.List o' := by
    rw [List_eq_filterMap, List_eq_filterMap, htrav, htrav']
    simp [List.filterMap_append, List.filterMap_cons, hk]
  refine ⟨hlist, List_ne_of_assert_none s o k hk, ?_, ?_, ?_⟩
  · unfold SyncSet.Range SyncMap.Range
    rw [htrav, htrav']
    exact rangeLoop_skip _ pre post (k, v) (by intro st'; simp [hk]) st
  · rw [rangeCalls_eq, rangeCalls_eq, hlist]
  · intro c hc
    apply List_ne_of_assert_none s o k hk
    have hmem : c.1 ∈ (rangeCalls s o f st).map Prod.fst := List.mem_map_of_mem Prod.fst hc
    rw [rangeCalls_eq, callsOn_take] at hmem
    exact List.mem_of_mem_take hmem

theorem traversal_skips_foreign_key_witness :
    (Schedule.inOrder _).arrange
        (SyncSet.mk (((SyncMap.empty.Store (GoAny.str "a") GoAny.unit).Store
          (GoAny.ptr 5) GoAny.unit).Store (GoAny.str "b") GoAny.unit) :
            SyncSet String GoAny).items.entries
        = [(GoAny.str "a", GoAny.unit)] ++ (GoAny.ptr 5, GoAny.unit)
            :: [(GoAny.str "b", GoAny.unit)] ∧
      (Schedule.inOrder _).arrange (run [Op.add "a", Op.add "b"] : SyncSet String GoAny).items.entries
        = [(GoAny.str "a", GoAny.unit)] ++ [(GoAny.str "b", GoAny.unit)] ∧
      GoElem.assertT (GoAny.ptr 5) = (none : Option String) ∧
      (SyncSet.mk (((SyncMap.empty.Store (GoAny.str "a") GoAny.unit).Store
          (GoAny.ptr 5) GoAny.unit).Store (GoAny.str "b") GoAny.unit) :
            SyncSet String GoAny).List (Schedule.inOrder _)
        = (run [Op.add "a", Op.add "b"] : SyncSet String GoAny).List (Schedule.inOrder _) :=
  ⟨by decide, by decide, rfl,
    (traversal_skips_foreign_key
      (SyncSet.mk (((SyncMap.empty.Store (GoAny.str "a") GoAny.unit).Store
          (GoAny.ptr 5) GoAny.unit).Store (GoAny.str "b") GoAny.unit) : SyncSet String GoAny)
      (run [Op.add "a", Op.add "b"] : SyncSet String GoAny)
      (Schedule.inOrder _) (Schedule.inOrder _) (fun (_ : String) (n : Nat) => (true, n + 1)) 0
      [(GoAny.str "a", GoAny.unit)] [(GoAny.str "b", GoAny.unit)] (GoAny.ptr 5) GoAny.unit
      (by decide) (by decide) rfl).1⟩

/-! ## `Size` against the length of `List` -/

theorem keys_applyOps_toAny [GoElem T A] [DecidableEq A] (ops : List (Op T)) (s : SyncSet T A)
    (hs : ∀ k ∈ s.items.keys, ∃ x : T, GoElem.toAny x = k) :
    ∀ k ∈ (applyOps s ops).items.keys, ∃ x : T, GoElem.toAny x = k := by
  induction ops generalizing s with
  | nil => exact hs
  | cons op rest ih =>
    have hstep : applyOps s (op :: rest) = applyOps (Op.apply s op) rest := rfl
    rw [hstep]
    apply ih
    intro k hk
    cases op with
    | add y =>
      rcases (SyncMap.mem_keys_Store s.items _ _ k).mp hk with h | h
      · exact ⟨y, h.symm⟩
      · exact hs k h
    | remove y =>
      exact hs k ((SyncMap.mem_keys_Delete s.items _ k).mp hk).2
    | clear =>
      simp [Op.apply, SyncSet.Clear, SyncMap.Clear, SyncMap.empty, SyncMap.keys] at hk

theorem length_filterMap_of_isSome {α β : Type} (g : α → Option β) (l : List α)
    (h : ∀ a ∈ l, (g a).isSome = true) : (l.filterMap g).length = l.length := by
  induction l with
  | nil => rfl
  | cons a rest ih =>
    have ha := h a (List.mem_cons_self a rest)
    obtain ⟨b, hb⟩ := Option.isSome_iff_exists.mp ha
    rw [List.filterMap_cons_some hb, List.length_cons, List.length_cons,
      ih (fun a' ha' => h a' (List.mem_cons_of_mem a ha'))]

/-- For an element type on whose items the type assertion never fails (any
type that is not an interface type), `Size()` is the length of `List()` on
every set reached from `NewSyncSet`. -/
theorem Size_eq_List_length_of_assert [GoElem T A] [DecidableEq A]
    (hT : ∀ x : T, GoElem.assertT (GoElem.toAny x : A) = some x) (ops : List (Op T))
    (o o' : Schedule (A × A)) :
    (run ops : SyncSet T A).Size o = ((run ops : SyncSet T A).List o').length := by
  have hkeys := keys_applyOps_toAny ops (NewSyncSet : SyncSet T A)
    (by intro k hk; simp [NewSyncSet, SyncMap.empty, SyncMap.keys] at hk)
  rw [Size_eq_length, List_eq_filterMap, length_filterMap_of_isSome,
    (o'.perm _).length_eq]
  intro e he
  have he' : e ∈ (run ops : SyncSet T A).items.entries := (o'.perm _).mem_iff.mp he
  obtain ⟨x, hx⟩ := hkeys e.1 (List.mem_map_of_mem Prod.fst he')
  rw [← hx, hT x]
  rfl

/-- C16, at `T = any`: on the set reached from `NewSyncSet` by `Add(nil)`,
`Size()` is 1 and the slice returned by `List()` has length 0, in any order of
traversal. -/
theorem Size_exceeds_List_length_nil (o o' : Schedule (GoAny × GoAny)) :
    (run [Op.add GoAny.nil] : SyncSet GoAny GoAny).Size o = 1 ∧
      ((run [Op.add GoAny.nil] : SyncSet GoAny GoAny).List o').length = 0 := by
  refine ⟨?_, ?_⟩
  · rw [Size_eq_length]
    rfl
  · rw [List_eq_filterMap]
    have hent : (run [Op.add GoAny.nil] : SyncSet GoAny GoAny).items.entries
        = [(GoAny.nil, GoAny.unit)] := rfl
    rw [hent, arrange_singleton]
    rfl

/-! ## The frame of `Add` -/

/-- C17: the frame of `Add`.  For `y ≠ x`, `Add(x)` does not change whether
`y` is a member, nor whether `y` is in `List()`; and when `x` is not a member,
`Add(x)` makes `Size()` one more. -/
theorem Add_frame [GoElem T A] [DecidableEq A] (s : SyncSet T A) (x y : T) :
    (y ≠ x →
        ((s.Add x).Member y ↔ s.Member y) ∧
        (∀ o o', y ∈ (s.Add x).List o ↔ y ∈ s.List o')) ∧
      (¬ s.Member x → ∀ o o', (s.Add x).Size o = s.Size o' + 1) := by
  refine ⟨?_, fun hx o o' => Size_Add_of_not_Member s x hx o o'⟩
  intro hne
  have hmem : (s.Add x).Member y ↔ s.Member y := by
    rw [Member_Add]
    constructor
    · rintro (h | h)
      · exact absurd h hne
      · exact h
    · exact Or.inr
  refine ⟨hmem, ?_⟩
  intro o o'
  rw [mem_List_iff, mem_List_iff, hmem]

theorem Add_frame_witness :
    ("b" ≠ "c" ∧
        (((run [Op.add "a", Op.add "b"] : SyncSet String GoAny).Add "c").Member "b" ↔
          (run [Op.add "a", Op.add "b"] : SyncSet String GoAny).Member "b")) ∧
      (¬ (run [Op.add "a", Op.add "b"] : SyncSet String GoAny).Member "c" ∧
        ((run [Op.add "a", Op.add "b"] : SyncSet String GoAny).Add "c").Size (Schedule.inOrder _)
          = (run [Op.add "a", Op.add "b"] : SyncSet String GoAny).Size (Schedule.reversed _)
            + 1) :=
  ⟨⟨by decide,
      ((Add_frame (run [Op.add "a", Op.add "b"] : SyncSet String GoAny) "c" "b").1
        (by decide)).1⟩,
    ⟨by decide,
      (Add_frame (run [Op.add "a", Op.add "b"] : SyncSet String GoAny) "c" "b").2
        (by decide) _ _⟩⟩

theorem Add_Remove_eq_self [GoElem T A] [DecidableEq A] (s : SyncSet T A) (x : T)
    (h : ¬ s.Member x) : (s.Add x).Remove x = s := by
  have h' : GoElem.toAny x ∉ s.items.entries.map Prod.fst := h
  have hent : ((s.items.Store (GoElem.toAny x) (GoElem.sentinel T)).Delete
      (GoElem.toAny x)).entries = s.items.entries := by
    unfold SyncMap.Delete SyncMap.Store
    rw [dif_neg h']
    simp only [List.filter_append, List.filter_cons, List.filter_nil, ne_eq, not_true_eq_false,
      decide_False, Bool.false_eq_true, if_false, List.append_nil, List.filter_eq_self,
      decide_eq_true_eq]
    intro e he hk
    have hm : e.1 ∈ s.items.entries.map Prod.fst := List.mem_map_of_mem Prod.fst he
    rw [hk] at hm
    exact h' hm
  cases s with
  | mk items =>
    simp only [SyncSet.Remove, SyncSet.Add, SyncSet.mk.injEq]
    exact SyncMap.eq_of_entries _ _ hent

/-! ## Every `comparable` type: the map operations -/

theorem entries_ext_full [DecidableEq K] [GoKey K] (m m' : Full.SyncMap K V)
    (h : m.entries = m'.entries) : m = m' := by
  cases m
  cases m'
  simp only at h
  subst h
  rfl

theorem Store_spec_full [DecidableEq K] [GoKey K] (m : Full.SyncMap K V) (key : K) (value : V)
    (hk : GoKey.hashable key = true) :
    ∃ m1, m.Store key value = Except.ok m1 ∧
      m1.entries =
        if m.entries.any (fun e => goEq e.1 key) = true then
          m.entries.map (fun e => if goEq e.1 key = true then (e.1, value) else e)
        else m.entries ++ [(key, value)] := by
  unfold Full.SyncMap.Store
  rw [dif_pos hk]
  by_cases hp : m.entries.any (fun e => goEq e.1 key) = true
  · rw [dif_pos hp, if_pos hp]
    exact ⟨_, rfl, rfl⟩
  · rw [dif_neg hp, if_neg hp]
    exact ⟨_, rfl, rfl⟩

theorem Delete_spec_full [DecidableEq K] [GoKey K] (m : Full.SyncMap K V) (key : K)
    (hk : GoKey.hashable key = true) :
    ∃ m1, m.Delete key = Except.ok m1 ∧
      m1.entries = m.entries.filter (fun e => !goEq e.1 key) := by
  unfold Full.SyncMap.Delete
  rw [if_pos hk]
  exact ⟨_, rfl, rfl⟩

theorem Store_panics_full [DecidableEq K] [GoKey K] (m : Full.SyncMap K V) (key : K) (value : V)
    (hk : GoKey.hashable key = false) : m.Store key value = Except.error Panic.unhashable := by
  unfold Full.SyncMap.Store
  rw [dif_neg (by simp [hk])]

theorem Delete_panics_full [DecidableEq K] [GoKey K] (m : Full.SyncMap K V) (key : K)
    (hk : GoKey.hashable key = false) : m.Delete key = Except.error Panic.unhashable := by
  unfold Full.SyncMap.Delete
  rw [if_neg (by simp [hk])]

/-- Where `==` is equality and every key can be hashed, `Store` is the `Store`
of the first model. -/
theorem Store_agrees_full [DecidableEq K] [GoKey K] (hself : ∀ a : K, GoKey.selfEq a = true)
    (hhash : ∀ a : K, GoKey.hashable a = true) (m : SyncMap K V) (m' : Full.SyncMap K V)
    (he : m'.entries = m.entries) (key : K) (value : V) :
    ∃ m1, m'.Store key value = Except.ok m1 ∧ m1.entries = (m.Store key value).entries := by
  obtain ⟨m1, h1, h2⟩ := Store_spec_full m' key value (hhash key)
  refine ⟨m1, h1, ?_⟩
  rw [h2, he]
  have hany : (m.entries.any (fun e => goEq e.1 key) = true) ↔ key ∈ m.entries.map Prod.fst := by
    simp only [List.any_eq_true, goEq, hself, Bool.and_true, decide_eq_true_eq, List.mem_map]
  unfold SyncMap.Store
  by_cases hp : key ∈ m.entries.map Prod.fst
  · rw [if_pos (hany.mpr hp), dif_pos hp]
    apply List.map_congr_left
    intro e _
    by_cases hek : e.1 = key
    · simp [goEq, hself, hek]
    · simp [goEq, hself, hek]
  · rw [if_neg (fun h => hp (hany.mp h)), dif_neg hp]

/-- Where `==` is equality and every key can be hashed, `Delete` is the
`Delete` of the first model. -/
theorem Delete_agrees_full [DecidableEq K] [GoKey K] (hself : ∀ a : K, GoKey.selfEq a = true)
    (hhash : ∀ a : K, GoKey.hashable a = true) (m : SyncMap K V) (m' : Full.SyncMap K V)
    (he : m'.entries = m.entries) (key : K) :
    ∃ m1, m'.Delete key = Except.ok m1 ∧ m1.entries = (m.Delete key).entries := by
  obtain ⟨m1, h1, h2⟩ := Delete_spec_full m' key (hhash key)
  refine ⟨m1, h1, ?_⟩
  rw [h2, he]
  unfold SyncMap.Delete
  apply List.filter_congr
  intro e _
  by_cases hek : e.1 = key <;> simp [goEq, hself, hek]

/-! ## Every `comparable` type: `Size`, `List`, `Add` and `Remove` -/

theorem SyncSet_ext_full [DecidableEq A] [GoKey A] (s s' : Full.SyncSet T A)
    (h : s.items.entries = s'.items.entries) : s = s' := by
  cases s with
  | mk m =>
    cases s' with
    | mk m' =>
      simp only [Full.SyncSet.mk.injEq]
      exact entries_ext_full m m' h

theorem Size_eq_length_full [DecidableEq A] [GoKey A] (s : Full.SyncSet T A)
    (o : Schedule (A × A)) : s.Size o = s.items.entries.length := by
  unfold Full.SyncSet.Size Full.SyncMap.Range
  rw [rangeLoop_count, (o.perm s.items.entries).length_eq]
  omega

theorem List_eq_filterMap_full [DecidableEq A] [GoKey A] [GoElem T A] (s : Full.SyncSet T A)
    (o : Schedule (A × A)) :
    s.List o = (o.arrange s.items.entries).filterMap (fun e => GoElem.assertT e.1) := by
  unfold Full.SyncSet.List Full.SyncMap.Range
  rw [rangeLoop_collect]
  rfl

theorem mem_List_iff_full [DecidableEq A] [GoKey A] [GoElem T A] (s : Full.SyncSet T A)
    (o : Schedule (A × A)) (x : T) :
    x ∈ s.List o ↔ s.Holds x ∧ GoElem.assertT (GoElem.toAny x : A) = some x := by
  rw [List_eq_filterMap_full, List.mem_filterMap]
  constructor
  · rintro ⟨e, he, hx⟩
    have hk : GoElem.toAny x = e.1 := GoElem.assert_sound e.1 x hx
    refine ⟨?_, by rw [hk]; exact hx⟩
    have he' : e ∈ s.items.entries := (o.perm s.items.entries).mem_iff.mp he
    show GoElem.toAny x ∈ s.items.entries.map Prod.fst
    rw [hk]
    exact List.mem_map_of_mem Prod.fst he'
  · rintro ⟨hm, hx⟩
    obtain ⟨e, he, hk⟩ := List.mem_map.mp hm
    refine ⟨e, (o.perm s.items.entries).mem_iff.mpr he, ?_⟩
    rw [hk]
    exact hx

theorem Add_spec_full [DecidableEq A] [GoKey A] [GoElem T A] (s : Full.SyncSet T A) (x : T)
    (hh : GoKey.hashable (GoElem.toAny x : A) = true) :
    ∃ s1, s.Add x = Except.ok s1 ∧
      s1.items.entries =
        if s.items.entries.any (fun e => goEq e.1 (GoElem.toAny x)) = true then
          s.items.entries.map
            (fun e => if goEq e.1 (GoElem.toAny x) = true then (e.1, GoElem.sentinel T) else e)
        else s.items.entries ++ [(GoElem.toAny x, GoElem.sentinel T)] := by
  obtain ⟨m1, h1, h2⟩ := Store_spec_full s.items (GoElem.toAny x) (GoElem.sentinel T) hh
  refine ⟨⟨m1⟩, ?_, h2⟩
  unfold Full.SyncSet.Add
  rw [h1]

theorem Remove_spec_full [DecidableEq A] [GoKey A] [GoElem T A] (s : Full.SyncSet T A) (x : T)
    (hh : GoKey.hashable (GoElem.toAny x : A) = true) :
    ∃ s1, s.Remove x = Except.ok s1 ∧
      s1.items.entries = s.items.entries.filter (fun e => !goEq e.1 (GoElem.toAny x)) := by
  obtain ⟨m1, h1, h2⟩ := Delete_spec_full s.items (GoElem.toAny x) hh
  refine ⟨⟨m1⟩, ?_, h2⟩
  unfold Full.SyncSet.Remove
  rw [h1]

theorem replace_fst_full [DecidableEq K] [GoKey K] (key : K) (value : V) (l : List (K × V)) :
    (l.map (fun e => if goEq e.1 key = true then (e.1, value) else e)).map Prod.fst
      = l.map Prod.fst := by
  rw [List.map_map]
  apply List.map_congr_left
  intro e _
  by_cases h : goEq e.1 key = true <;> simp [h]

theorem goEq_self [DecidableEq K] [GoKey K] (key : K) (hs : GoKey.selfEq key = true) :
    goEq key key = true := by
  simp [goEq, hs]

theorem goEq_eq_true [DecidableEq K] [GoKey K] (a key : K) (h : goEq a key = true) : a = key := by
  simp only [goEq, Bool.and_eq_true, decide_eq_true_eq] at h
  exact h.1

theorem any_of_mem_keys [DecidableEq K] [GoKey K] (l : List (K × V)) (key : K)
    (hs : GoKey.selfEq key = true) (hk : key ∈ l.map Prod.fst) :
    l.any (fun e => goEq e.1 key) = true := by
  obtain ⟨e, he, hek⟩ := List.mem_map.mp hk
  exact List.any_eq_true.mpr ⟨e, he, by rw [hek]; exact goEq_self key hs⟩

theorem not_goEq_of_not_mem [DecidableEq K] [GoKey K] (l : List (K × V)) (key : K)
    (hk : key ∉ l.map Prod.fst) (e : K × V) (he : e ∈ l) : goEq e.1 key = false := by
  cases h : goEq e.1 key with
  | false => rfl
  | true =>
    have hek := goEq_eq_true e.1 key h
    exact absurd (hek ▸ List.mem_map_of_mem Prod.fst he) hk

/-- The second `Add(x)` of an item that is `==` to itself: the map is the one
after the first. -/
theorem Store_twice_entries [DecidableEq K] [GoKey K] (l : List (K × V)) (key : K) (value : V)
    (hs : GoKey.selfEq key = true) :
    ((if l.any (fun e => goEq e.1 key) = true then
          l.map (fun e => if goEq e.1 key = true then (e.1, value) else e)
        else l ++ [(key, value)]).any (fun e => goEq e.1 key) = true) ∧
      (if l.any (fun e => goEq e.1 key) = true then
          l.map (fun e => if goEq e.1 key = true then (e.1, value) else e)
        else l ++ [(key, value)]).map
          (fun e => if goEq e.1 key = true then (e.1, value) else e)
        = (if l.any (fun e => goEq e.1 key) = true then
          l.map (fun e => if goEq e.1 key = true then (e.1, value) else e)
        else l ++ [(key, value)]) := by
  by_cases hp : l.any (fun e => goEq e.1 key) = true
  · rw [if_pos hp]
    constructor
    · obtain ⟨e, he, hek⟩ := List.any_eq_true.mp hp
      refine List.any_eq_true.mpr ⟨_, List.mem_map_of_mem _ he, ?_⟩
      simp [hek]
    · rw [List.map_map]
      apply List.map_congr_left
      intro e _
      by_cases h : goEq e.1 key = true <;> simp [h]
  · rw [if_neg hp]
    have hself := goEq_self key hs
    constructor
    · exact List.any_eq_true.mpr ⟨(key, value), by simp, hself⟩
    · rw [List.map_append]
      have hl : l.map (fun e => if goEq e.1 key = true then (e.1, value) else e) = l := by
        conv_rhs => rw [← List.map_id l]
        apply List.map_congr_left
        intro e he
        have hne : ¬ goEq e.1 key = true := fun h => hp (List.any_eq_true.mpr ⟨e, he, h⟩)
        simp [hne]
      rw [hl]
      simp [hself]

theorem filter_not_goEq_length [DecidableEq K] [GoKey K] (l : List (K × V)) (key : K)
    (hs : GoKey.selfEq key = true) (hd : l.Pairwise (fun a b => goEq a.1 b.1 = false))
    (hk : key ∈ l.map Prod.fst) :
    (l.filter (fun e => !goEq e.1 key)).length + 1 = l.length := by
  induction l with
  | nil => simp at hk
  | cons e rest ih =>
    rw [List.pairwise_cons] at hd
    by_cases hek : e.1 = key
    · have hself : goEq e.1 key = true := by rw [hek]; exact goEq_self key hs
      have hrest : rest.filter (fun e' => !goEq e'.1 key) = rest := by
        rw [List.filter_eq_self]
        intro b hb
        have hne := hd.1 b hb
        rw [hek] at hne
        have hbk : goEq b.1 key = false := by
          cases h : goEq b.1 key with
          | false => rfl
          | true =>
            have hb' := goEq_eq_true b.1 key h
            rw [hb', goEq_self key hs] at hne
            exact absurd hne (by simp)
        simp [hbk]
      rw [List.filter_cons_of_neg (by simp [hself]), hrest, List.length_cons]
    · have hne : goEq e.1 key = false := by
        cases h : goEq e.1 key with
        | false => rfl
        | true => exact absurd (goEq_eq_true e.1 key h) hek
      have hk' : key ∈ rest.map Prod.fst := by
        rcases List.mem_cons.mp hk with h | h
        · exact absurd h.symm hek
        · exact h
      rw [List.filter_cons_of_pos (by simp [hne]), List.length_cons, List.length_cons,
        ih hd.2 hk']

theorem Add_ok_hashable [DecidableEq A] [GoKey A] [GoElem T A] (s s1 : Full.SyncSet T A)
    (x : T) (h1 : s.Add x = Except.ok s1) : GoKey.hashable (GoElem.toAny x : A) = true := by
  cases hh : GoKey.hashable (GoElem.toAny x : A) with
  | true => rfl
  | false =>
    have hp := Store_panics_full s.items (GoElem.toAny x : A) (GoElem.sentinel T) hh
    unfold Full.SyncSet.Add at h1
    rw [hp] at h1
    exact absurd h1 (by simp)

theorem Add_ok_entries [DecidableEq A] [GoKey A] [GoElem T A] (s s1 : Full.SyncSet T A)
    (x : T) (h1 : s.Add x = Except.ok s1) :
    s1.items.entries =
      if s.items.entries.any (fun e => goEq e.1 (GoElem.toAny x)) = true then
        s.items.entries.map
          (fun e => if goEq e.1 (GoElem.toAny x) = true then (e.1, GoElem.sentinel T) else e)
      else s.items.entries ++ [(GoElem.toAny x, GoElem.sentinel T)] := by
  obtain ⟨s1', h1', he⟩ := Add_spec_full s x (Add_ok_hashable s s1 x h1)
  rw [h1] at h1'
  cases h1'
  exact he

/-! ## Every `comparable` type: `Add` twice -/

/-- C4, as stated, fails at `T = float64`: after `Add(NaN)` on a new set
`Size()` is 1 and `List()` has one item; after `Add(NaN); Add(NaN)` `Size()`
is 2 and `List()` has two. -/
theorem Add_twice_NaN :
    ((Full.run [Op.add Float64.nan] (Full.NewSyncSet : Full.SyncSet Float64 GoVal)).toOption.map
        (fun s => (s.Size (Schedule.inOrder _), s.List (Schedule.inOrder _))))
        = some (1, [Float64.nan]) ∧
      ((Full.run [Op.add Float64.nan, Op.add Float64.nan]
          (Full.NewSyncSet : Full.SyncSet Float64 GoVal)).toOption.map
        (fun s => (s.Size (Schedule.inOrder _), s.List (Schedule.inOrder _))))
        = some (2, [Float64.nan, Float64.nan]) := by
  decide

/-- C4, amended: for every item `x` that is `==` to itself, the set after
`Add(x); Add(x)` is the set after one `Add(x)`, with the same `Size()` and the
same items in `List()`, and the second `Add(x)` does not panic; and on a set
that holds `x` already, `Add(x)` changes neither `Size()` nor what the set
holds nor the items of `List()`. -/
theorem Add_twice_self_equal [DecidableEq A] [GoKey A] [GoElem T A] (s s1 : Full.SyncSet T A)
    (x : T) (h1 : s.Add x = Except.ok s1)
    (hs : GoKey.selfEq (GoElem.toAny x : A) = true) :
    ∃ s2, s1.Add x = Except.ok s2 ∧ s2 = s1 ∧
      (∀ o o', s2.Size o = s1.Size o') ∧
      (∀ o o' y, y ∈ s2.List o ↔ y ∈ s1.List o') ∧
      (s.Holds x →
        (∀ o o', s1.Size o = s.Size o') ∧
        (∀ y, s1.Holds y ↔ s.Holds y) ∧
        (∀ o o' y, y ∈ s1.List o ↔ y ∈ s.List o')) := by
  have hh := Add_ok_hashable s s1 x h1
  have he1 := Add_ok_entries s s1 x h1
  obtain ⟨s2, h2, he2⟩ := Add_spec_full s1 x hh
  have htw := Store_twice_entries s.items.entries (GoElem.toAny x : A) (GoElem.sentinel T) hs
  rw [← he1] at htw
  rw [if_pos htw.1, htw.2] at he2
  have heq : s2 = s1 := SyncSet_ext_full s2 s1 he2
  refine ⟨s2, h2, heq, ?_, ?_, ?_⟩
  · intro o o'
    rw [heq, Size_eq_length_full, Size_eq_length_full]
  · intro o o' y
    rw [heq, mem_List_iff_full, mem_List_iff_full]
  · intro hx
    have hany := any_of_mem_keys s.items.entries (GoElem.toAny x : A) hs hx
    rw [if_pos hany] at he1
    have hkeys : s1.items.entries.map Prod.fst = s.items.entries.map Prod.fst := by
      rw [he1, replace_fst_full]
    have hholds : ∀ y, s1.Holds y ↔ s.Holds y := by
      intro y
      unfold Full.SyncSet.Holds
      rw [hkeys]
    refine ⟨?_, hholds, ?_⟩
    · intro o o'
      rw [Size_eq_length_full, Size_eq_length_full, he1, List.length_map]
    · intro o o' y
      rw [mem_List_iff_full, mem_List_iff_full, hholds]

theorem Add_twice_self_equal_witness :
    Full.twoFloats.Add (Float64.num 1) = Except.ok Full.twoFloats ∧
      GoKey.selfEq (GoElem.toAny (Float64.num 1) : GoVal) = true ∧
      Full.twoFloats.Holds (Float64.num 1) ∧
      ∃ s2, Full.twoFloats.Add (Float64.num 1) = Except.ok s2 ∧ s2 = Full.twoFloats ∧
        (∀ o o', s2.Size o = Full.twoFloats.Size o') ∧
        (∀ o o' y, y ∈ s2.List o ↔ y ∈ Full.twoFloats.List o') ∧
        (Full.twoFloats.Holds (Float64.num 1) →
          (∀ o o', Full.twoFloats.Size o = Full.twoFloats.Size o') ∧
          (∀ y, Full.twoFloats.Holds y ↔ Full.twoFloats.Holds y) ∧
          (∀ o o' y, y ∈ Full.twoFloats.List o ↔ y ∈ Full.twoFloats.List o')) :=
  ⟨rfl, by decide, by decide,
    Add_twice_self_equal Full.twoFloats Full.twoFloats (Float64.num 1) rfl (by decide)⟩

/-! ## Every `comparable` type: `Remove` -/

/-- C5, as stated, fails at `T = any`: a value of a slice type is not a member
of the new set, and `Remove` of it panics. -/
theorem Remove_unhashable_panics :
    ¬ (Full.NewSyncSet : Full.SyncSet GoVal GoVal).Holds (GoVal.slice 1) ∧
      (Full.NewSyncSet : Full.SyncSet GoVal GoVal).Remove (GoVal.slice 1)
        = Except.error Panic.unhashable :=
  ⟨by decide, rfl⟩

/-- C5, amended: for every item `x` whose dynamic type can be hashed and that
the set does not hold, `Remove(x)` returns without a panic and leaves the set
as it was: the same `Size()`, the same items held, the same items in `List()`. -/
theorem Remove_absent_hashable [DecidableEq A] [GoKey A] [GoElem T A] (s : Full.SyncSet T A)
    (x : T) (hh : GoKey.hashable (GoElem.toAny x : A) = true) (hx : ¬ s.Holds x) :
    ∃ s', s.Remove x = Except.ok s' ∧ s' = s ∧
      (∀ o o', s'.Size o = s.Size o') ∧
      (∀ y, s'.Holds y ↔ s.Holds y) ∧
      (∀ o o' y, y ∈ s'.List o ↔ y ∈ s.List o') := by
  obtain ⟨s', h1, he⟩ := Remove_spec_full s x hh
  have hent : s'.items.entries = s.items.entries := by
    rw [he, List.filter_eq_self]
    intro e hmem
    simp [not_goEq_of_not_mem s.items.entries (GoElem.toAny x : A) hx e hmem]
  have heq : s' = s := SyncSet_ext_full s' s hent
  refine ⟨s', h1, heq, ?_, ?_, ?_⟩
  · intro o o'
    rw [heq, Size_eq_length_full, Size_eq_length_full]
  · intro y
    rw [heq]
  · intro o o' y
    rw [heq, mem_List_iff_full, mem_List_iff_full]

theorem Remove_absent_hashable_witness :
    GoKey.hashable (GoElem.toAny Float64.nan : GoVal) = true ∧
      ¬ Full.twoFloats.Holds Float64.nan ∧
      ∃ s', Full.twoFloats.Remove Float64.nan = Except.ok s' ∧ s' = Full.twoFloats ∧
        (∀ o o', s'.Size o = Full.twoFloats.Size o') ∧
        (∀ y, s'.Holds y ↔ Full.twoFloats.Holds y) ∧
        (∀ o o' y, y ∈ s'.List o ↔ y ∈ Full.twoFloats.List o') :=
  ⟨by decide, by decide, Remove_absent_hashable Full.twoFloats Float64.nan (by decide) (by decide)⟩

/-- C6, as stated, fails twice.  At `T = float64` the set after `Add(NaN)` holds
NaN and has `Size()` 1, and after `Remove(NaN)` it still has `Size()` 1 and NaN
in `List()`.  At `T = any` the set after `Add(nil); Add("a")` holds nil, another
item than "a", and after `Remove("a")` `List()` is empty. -/
theorem Remove_member_fails :
    ((Full.run [Op.add Float64.nan] (Full.NewSyncSet : Full.SyncSet Float64 GoVal)).toOption.map
        (fun s => (decide (s.Holds Float64.nan), s.Size (Schedule.inOrder _))))
        = some (true, 1) ∧
      ((Full.run [Op.add Float64.nan, Op.remove Float64.nan]
          (Full.NewSyncSet : Full.SyncSet Float64 GoVal)).toOption.map
        (fun s => (s.Size (Schedule.inOrder _), s.List (Schedule.inOrder _))))
        = some (1, [Float64.nan]) ∧
      GoVal.nil ≠ GoVal.str "a" ∧
      ((Full.run [Op.add GoVal.nil, Op.add (GoVal.str "a")]
          (Full.NewSyncSet : Full.SyncSet GoVal GoVal)).toOption.map
        (fun s => (decide (s.Holds GoVal.nil), decide (s.Holds (GoVal.str "a")))))
        = some (true, true) ∧
      ((Full.run [Op.add GoVal.nil, Op.add (GoVal.str "a"), Op.remove (GoVal.str "a")]
          (Full.NewSyncSet : Full.SyncSet GoVal GoVal)).toOption.map
        (fun s => (decide (s.Holds GoVal.nil), s.List (Schedule.inOrder _))))
        = some (true, []) := by
  decide

/-- C6, amended: for every item `x` that the set holds and that is `==` to
itself, `Remove(x)` returns; afterwards `x` is not in `List()` and is not held,
`Size()` is one less than before, every other item held is still held, and
every other item held on which `k.(T)` succeeds (any but a nil interface value)
is in `List()`. -/
theorem Remove_held_self_equal [DecidableEq A] [GoKey A] [GoElem T A] (s : Full.SyncSet T A)
    (x : T) (hx : s.Holds x) (hs : GoKey.selfEq (GoElem.toAny x : A) = true) :
    ∃ s', s.Remove x = Except.ok s' ∧
      (∀ o, x ∉ s'.List o) ∧
      ¬ s'.Holds x ∧
      (∀ o o', s'.Size o + 1 = s.Size o') ∧
      (∀ y, y ≠ x → s.Holds y → s'.Holds y) ∧
      (∀ y, y ≠ x → s.Holds y → GoElem.assertT (GoElem.toAny y : A) = some y →
        ∀ o, y ∈ s'.List o) := by
  have hh : GoKey.hashable (GoElem.toAny x : A) = true := by
    obtain ⟨e, he, hek⟩ := List.mem_map.mp hx
    rw [← hek]
    exact s.items.hashableKeys e he
  obtain ⟨s', h1, he⟩ := Remove_spec_full s x hh
  have hnot : ¬ s'.Holds x := by
    intro hm
    obtain ⟨e, hmem, hek⟩ := List.mem_map.mp hm
    rw [he] at hmem
    have hf := (List.mem_filter.mp hmem).2
    rw [hek, goEq_self _ hs] at hf
    exact absurd hf (by simp)
  have hkeep : ∀ y, y ≠ x → s.Holds y → s'.Holds y := by
    intro y hne hy
    obtain ⟨e, hmem, hek⟩ := List.mem_map.mp hy
    have hneq : goEq e.1 (GoElem.toAny x : A) = false := by
      cases h : goEq e.1 (GoElem.toAny x : A) with
      | false => rfl
      | true =>
        have h' := goEq_eq_true e.1 _ h
        rw [hek] at h'
        exact absurd (GoElem.toAny_inj y x h') hne
    have hmem' : e ∈ s'.items.entries := by
      rw [he]
      exact List.mem_filter.mpr ⟨hmem, by simp [hneq]⟩
    exact List.mem_map.mpr ⟨e, hmem', hek⟩
  refine ⟨s', h1, ?_, hnot, ?_, hkeep, ?_⟩
  · intro o hmem
    exact hnot ((mem_List_iff_full s' o x).mp hmem).1
  · intro o o'
    rw [Size_eq_length_full, Size_eq_length_full, he]
    exact filter_not_goEq_length s.items.entries _ hs s.items.distinctKeys hx
  · intro y hne hy hassert o
    exact (mem_List_iff_full s' o y).mpr ⟨hkeep y hne hy, hassert⟩

theorem Remove_held_self_equal_witness :
    Full.twoFloats.Holds (Float64.num 1) ∧
      GoKey.selfEq (GoElem.toAny (Float64.num 1) : GoVal) = true ∧
      ∃ s', Full.twoFloats.Remove (Float64.num 1) = Except.ok s' ∧
        (∀ o, Float64.num 1 ∉ s'.List o) ∧
        ¬ s'.Holds (Float64.num 1) ∧
        (∀ o o', s'.Size o + 1 = Full.twoFloats.Size o') ∧
        (∀ y, y ≠ Float64.num 1 → Full.twoFloats.Holds y → s'.Holds y) ∧
        (∀ y, y ≠ Float64.num 1 → Full.twoFloats.Holds y →
          GoElem.assertT (GoElem.toAny y : GoVal) = some y → ∀ o, y ∈ s'.List o) :=
  ⟨by decide, by decide,
    Remove_held_self_equal Full.twoFloats (Float64.num 1) (by decide) (by decide)⟩

/-! ## Every `comparable` type: `Add` then `Remove` -/

/-- C18, as stated, fails at `T = float64`: the new set does not hold NaN and
has `Size()` 0; after `Add(NaN); Remove(NaN)` it has `Size()` 1 and NaN in
`List()`. -/
theorem Add_Remove_NaN :
    ¬ (Full.NewSyncSet : Full.SyncSet Float64 GoVal).Holds Float64.nan ∧
      (Full.NewSyncSet : Full.SyncSet Float64 GoVal).Size (Schedule.inOrder _) = 0 ∧
      ((Full.run [Op.add Float64.nan, Op.remove Float64.nan]
          (Full.NewSyncSet : Full.SyncSet Float64 GoVal)).toOption.map
        (fun s => (s.Size (Schedule.inOrder _), s.List (Schedule.inOrder _))))
        = some (1, [Float64.nan]) := by
  decide

/-- C18, amended: for every item `x` that is `==` to itself and that the set
`s` does not hold, `Remove(x)` after `Add(x)` does not panic and gives back
`s`: the same items held, the same items in `List()`, the same `Size()`. -/
theorem Add_Remove_self_equal [DecidableEq A] [GoKey A] [GoElem T A] (s s1 : Full.SyncSet T A)
    (x : T) (h1 : s.Add x = Except.ok s1)
    (hs : GoKey.selfEq (GoElem.toAny x : A) = true) (hx : ¬ s.Holds x) :
    ∃ s2, s1.Remove x = Except.ok s2 ∧ s2 = s ∧
      (∀ y, s2.Holds y ↔ s.Holds y) ∧
      (∀ o o' y, y ∈ s2.List o ↔ y ∈ s.List o') ∧
      (∀ o o', s2.Size o = s.Size o') := by
  have hh := Add_ok_hashable s s1 x h1
  have he1 := Add_ok_entries s s1 x h1
  obtain ⟨s2, h2, he2⟩ := Remove_spec_full s1 x hh
  have hnone : ∀ e ∈ s.items.entries, goEq e.1 (GoElem.toAny x : A) = false :=
    not_goEq_of_not_mem s.items.entries _ hx
  have hany : ¬ s.items.entries.any (fun e => goEq e.1 (GoElem.toAny x : A)) = true := by
    intro h
    obtain ⟨e, he, hek⟩ := List.any_eq_true.mp h
    rw [hnone e he] at hek
    exact absurd hek (by simp)
  rw [if_neg hany] at he1
  have hent : s2.items.entries = s.items.entries := by
    rw [he2, he1, List.filter_append]
    have hl : s.items.entries.filter (fun e => !goEq e.1 (GoElem.toAny x : A))
        = s.items.entries := by
      rw [List.filter_eq_self]
      intro e he
      simp [hnone e he]
    rw [hl]
    simp [goEq_self _ hs]
  have heq : s2 = s := SyncSet_ext_full s2 s hent
  refine ⟨s2, h2, heq, ?_, ?_, ?_⟩
  · intro y
    rw [heq]
  · intro o o' y
    rw [heq, mem_List_iff_full, mem_List_iff_full]
  · intro o o'
    rw [heq, Size_eq_length_full, Size_eq_length_full]

theorem Add_Remove_self_equal_witness :
    Full.twoFloats.Add (Float64.num 3) = Except.ok Full.threeFloats ∧
      GoKey.selfEq (GoElem.toAny (Float64.num 3) : GoVal) = true ∧
      ¬ Full.twoFloats.Holds (Float64.num 3) ∧
      ∃ s2, Full.threeFloats.Remove (Float64.num 3) = Except.ok s2 ∧ s2 = Full.twoFloats ∧
        (∀ y, s2.Holds y ↔ Full.twoFloats.Holds y) ∧
        (∀ o o' y, y ∈ s2.List o ↔ y ∈ Full.twoFloats.List o') ∧
        (∀ o o', s2.Size o = Full.twoFloats.Size o') :=
  ⟨rfl, by decide, by decide,
    Add_Remove_self_equal Full.twoFloats Full.threeFloats (Float64.num 3) rfl (by decide)
      (by decide)⟩

end Syncset
